import Mathlib

/-!
Verification development for the popins contig partitioning and merging core
(`src/merge/partition.h`, `src/popins_merge_seqs.h`).

The C++ code is shallowly embedded: sequences are `List Char`, SeqAn's
`Pair<TSize>` is `Nat × Nat`, `std::set<Pair<TSize>>` is a sorted,
duplicate-free `List (Nat × Nat)` maintained by `pairInsert`, `std::map` is a
key-sorted association list, and unsigned machine arithmetic is `Nat` with an
explicit `% 2 ^ 64` where wrap-around matters.  SeqAn library routines that are
not part of this repository (the union-find structure, `localAlignment`, the
SWIFT filter) are modelled from the spec or abstracted as oracle parameters;
each such place is marked in its doc comment.
-/

namespace Popins

/-! ### Decimal rendering and parsing of pair-file tokens -/

/-- Decimal digit character for a value below ten. -/
def digitChar (d : Nat) : Char := Char.ofNat (48 + d)

/-- Division-by-ten loop for decimal rendering, with structural fuel
(`n + 1` always suffices since `n / 10 < n`). -/
def natReprGo : Nat → Nat → List Char
  | 0, _ => []
  | fuel + 1, n =>
    if n < 10 then [digitChar n]
    else natReprGo fuel (n / 10) ++ [digitChar (n % 10)]

/-- Decimal rendering of a natural number, as emitted by `operator<<` in
`writeAlignedPairs`. -/
def natRepr (n : Nat) : List Char := natReprGo (n + 1) n

/-- `2 ^ 64`, the modulus of the unsigned 64-bit size type used for ids. -/
def POW64 : Nat := 18446744073709551616

/-- Value of a run of decimal digit characters, most significant first. -/
def digitsToVal (ds : List Char) : Nat :=
  ds.foldl (fun acc c => acc * 10 + (c.toNat - 48)) 0

/-- One extraction `stream >> key` for an unsigned 64-bit integer
(`num_get`/`strtoull` semantics): an optional single `+` or `-` sign, then
the longest run of decimal digits.  At least one digit must be present,
otherwise the extraction fails (`failbit`); a `-` sign negates the value
modulo `2 ^ 64` (unsigned wrap-around); a digit run valued `2 ^ 64` or more
is out of range and also fails.  On success the unconsumed remainder of the
token is returned: the next extraction continues right there. -/
def extractNum (t : List Char) : Option (Nat × List Char) :=
  let t1 := if t.head? = some '+' ∨ t.head? = some '-' then t.tail else t
  let ds := t1.takeWhile Char.isDigit
  if ds = [] then none
  else if digitsToVal ds < POW64 then
    some (if t.head? = some '-' then (POW64 - digitsToVal ds) % POW64 else digitsToVal ds,
          t1.dropWhile Char.isDigit)
  else none

/-- Extract the next unsigned number from the token stream (whitespace is
already consumed: the stream is its token list).  Extraction works on the
head token; a nonempty unconsumed remainder becomes the new head, since the
following extraction continues at the very next character. -/
def nextNum : List (List Char) → Option (Nat × List (List Char))
  | [] => none
  | t :: rest =>
    match extractNum t with
    | none => none
    | some (k, leftover) =>
      if leftover = [] then some (k, rest) else some (k, leftover :: rest)

/-! ### Sorted pair sets: `std::set<Pair<TSize>>` -/

/-- `seqan::Pair` comparison: lexicographic on `(i1, i2)`. -/
def pairLtB (p q : Nat × Nat) : Bool :=
  p.1 < q.1 || (p.1 = q.1 && p.2 < q.2)

/-- A `std::set<Pair<TSize>>`: sorted, duplicate-free list of pairs. -/
abbrev PairSet := List (Nat × Nat)

/-- `std::set::insert`: keep the list sorted, do nothing if present. -/
def pairInsert (p : Nat × Nat) : PairSet → PairSet
  | [] => [p]
  | q :: t => if pairLtB p q then p :: q :: t
              else if p = q then q :: t
              else q :: pairInsert p t

/-! ### Union-Find

Modelled from the spec: SeqAn's `UnionFind<int>` (not part of this
repository) is "an array of length 2N.  Negative entries are roots and encode
`-component_size`; non-negative entries point to a parent. ... `union` attaches
the smaller tree under the larger root (size-weighted) and updates the size.
`find` performs path compression."  We represent the forest by the induced
representative map: `parent i` is directly the root of `i`'s tree, `weight r`
is the tree size stored (negated) in a root slot.  Path compression only
shortens internal chains and never changes any root, so it is invisible in
this representation.  `joinSets` replicates SeqAn's size comparison
`_values[set1] < _values[set2]` (i.e. `weight set2 < weight set1`): the
strictly larger tree wins, ties attach the first argument under the second.
A self-join leaves the structure unchanged. -/

structure UnionFind where
  size : Nat
  parent : Nat → Nat
  weight : Nat → Nat

/-- `resize(uf, n)` on a default-constructed union-find: `n` singleton sets. -/
def freshUF (n : Nat) : UnionFind :=
  { size := n, parent := fun i => i, weight := fun _ => 1 }

/-- `findSet(uf, i)`: the representative of `i`'s set. -/
def findSet (uf : UnionFind) (i : Nat) : Nat := uf.parent i

/-- `joinSets(uf, set1, set2)` for two roots `set1`, `set2`. -/
def joinSets (uf : UnionFind) (set1 set2 : Nat) : UnionFind :=
  if set1 = set2 then uf
  else if uf.weight set2 < uf.weight set1 then
    { size := uf.size
      parent := fun i => if uf.parent i = set2 then set1 else uf.parent i
      weight := fun r => if r = set1 then uf.weight set1 + uf.weight set2 else uf.weight r }
  else
    { size := uf.size
      parent := fun i => if uf.parent i = set1 then set2 else uf.parent i
      weight := fun r => if r = set2 then uf.weight set2 + uf.weight set1 else uf.weight r }

/-- `globalIndexRC(a, batch)`: the reverse-complement twin id.  Modelled from
the spec (the helper lives in `contig_structs.h`, which is not under `src/`):
"Reverse-complement twins occupy ids `N .. 2N-1` with the bijection
`rc(i) = (i + N) mod 2N`". -/
def globalIndexRC (i totalContigs : Nat) : Nat :=
  if i < totalContigs then i + totalContigs else i - totalContigs

/-! ### Contigs, SWIFT hits and `partitionContigs` (`merge/partition.h:151-265`)

The streamed contig records and the q-gram index are abstracted as follows:
`contigs` maps a global id to its record (sample tag `pn` and forward
sequence), exactly the data `partitionContigs` reads from the `contigs` map
and from `readNextContig` (whose record for id `a` carries the same `pn` and
sequence by construction of the caller).  The SWIFT finder (SeqAn library
code) is abstracted as, per streamed contig `a`, an arbitrary list of hits,
each carrying the pattern sequence's global id `b` and the filter fields
`hstkPos`, `ndlPos`, `delta`, `overlap` used for the band computation.
`localAlignment` (SeqAn library code) is abstracted as a score oracle taking
the two sequences, the scoring-scheme values and the band. -/

/-- The fields of one contig that `partitionContigs` reads. -/
structure ContigRec where
  pn : Nat
  seq : List Char

/-- One SWIFT filter hit, as consumed by the loop body in
`partitionContigs`: `b = indices[swiftPattern.curSeqNo]` plus the band data
of the hit. -/
structure Hit where
  b : Nat
  hstkPos : Int
  ndlPos : Int
  delta : Int
  overlap : Int

/-- Score oracle standing for `localAlignment(align, scoringScheme,
lowerDiag, upperDiag)`: arguments are the two sequences, `matchScore`,
`errorPenalty` (the scheme is `Score(matchScore, errorPenalty,
errorPenalty)`), `lowerDiag` and `upperDiag`. -/
abbrev LocalAlign := List Char → List Char → Int → Int → Int → Int → Int

/-- The `MergingOptions` fields used by the partitioning model. -/
structure MergeOpts where
  matchScore : Int
  errorPenalty : Int
  minScore : Int

/-- `diagExtension = options.minScore/10` (`partition.h:185`). -/
def diagExtension (o : MergeOpts) : Int := o.minScore / 10

/-- Upper band diagonal for a hit (`partition.h:232,234`). -/
def hitUpperDiag (h : Hit) (o : MergeOpts) : Int :=
  h.hstkPos - h.ndlPos + diagExtension o

/-- Lower band diagonal for a hit (`partition.h:233,235`). -/
def hitLowerDiag (h : Hit) (o : MergeOpts) : Int :=
  h.hstkPos - h.ndlPos - h.delta - h.overlap - diagExtension o

/-- `pairwiseAlignment` (`partition.h:122-145`): run the (abstracted) banded
local alignment and compare the score against `minScore`. -/
def pairwiseAlignment (L : LocalAlign) (contig1 contig2 : List Char)
    (matchScore errorPenalty lowerDiag upperDiag minScore : Int) : Bool :=
  L contig1 contig2 matchScore errorPenalty lowerDiag upperDiag > minScore

/-- State threaded through `partitionContigs`: the union-find, the aligned
pair set, and a ghost `trace` recording the inserted pairs in insertion
order (used only to state order-sensitivity properties; `uf` and `pairs`
evolve exactly as in the source). -/
structure PartState where
  uf : UnionFind
  pairs : PairSet
  trace : List (Nat × Nat)

/-- Initial state of `partitionContigs`: union-find resized to `n` slots,
empty pair set. -/
def freshPartState (n : Nat) : PartState :=
  { uf := freshUF n, pairs := [], trace := [] }

/-- Body of the SWIFT finder loop of `partitionContigs`
(`partition.h:214-252`) for one hit of streamed contig `a` (with record
`ca`).  Returns the successor state and the `break` flag of line 251.
A hit whose pattern id is not a key of `contigs` cannot occur (the pattern
indexes exactly the map's sequences) and is skipped. -/
def processHit (L : LocalAlign) (o : MergeOpts) (contigs : Nat → Option ContigRec)
    (totalContigs : Nat) (a : Nat) (ca : ContigRec) (s : PartState) (h : Hit) :
    PartState × Bool :=
  match contigs h.b with
  | none => (s, false)
  | some cb =>
    -- align contigs only of different individuals
    if ca.pn = cb.pn then (s, false)
    -- align contigs only if not same component already
    else if findSet s.uf a = findSet s.uf h.b then (s, false)
    -- verify by banded Smith-Waterman alignment
    else if ¬ pairwiseAlignment L ca.seq cb.seq o.matchScore o.errorPenalty
              (hitLowerDiag h o) (hitUpperDiag h o) o.minScore then (s, false)
    else
      let pairs1 := pairInsert (a, h.b) s.pairs
      -- join sets of the two aligned contigs
      let uf1 := joinSets s.uf (findSet s.uf a) (findSet s.uf h.b)
      -- join sets for reverse complements of the contigs
      let a1 := globalIndexRC a totalContigs
      let b1 := globalIndexRC h.b totalContigs
      let uf2 := joinSets uf1 (findSet uf1 a1) (findSet uf1 b1)
      -- stop if the component holds more than 100 contigs (uf values < -100)
      (⟨uf2, pairs1, s.trace ++ [(a, h.b)]⟩, 100 < uf2.weight (findSet uf2 a))

/-- The SWIFT finder loop for one streamed contig, with the early `break`. -/
def processHits (L : LocalAlign) (o : MergeOpts) (contigs : Nat → Option ContigRec)
    (totalContigs : Nat) (a : Nat) (ca : ContigRec) :
    PartState → List Hit → PartState
  | s, [] => s
  | s, h :: t =>
    let r := processHit L o contigs totalContigs a ca s h
    if r.2 then r.1 else processHits L o contigs totalContigs a ca r.1 t

/-- `partitionContigs` (`partition.h:151-265`): stream over the contigs; ids
absent from the `contigs` map are skipped (`partition.h:208`); for each
present id run the SWIFT finder loop over its hit list. -/
def partitionContigs (L : LocalAlign) (o : MergeOpts) (contigs : Nat → Option ContigRec)
    (totalContigs : Nat) (groups : List (Nat × List Hit)) (s : PartState) : PartState :=
  match groups with
  | [] => s
  | (a, hits) :: rest =>
    let s1 := match contigs a with
      | none => s
      | some ca => processHits L o contigs totalContigs a ca s hits
    partitionContigs L o contigs totalContigs rest s1

/-- Reachability between `partitionContigs` states: `s'` arises from `s` by
processing some sequence of SWIFT hits of streamed contigs present in the
`contigs` map. -/
inductive Steps (L : LocalAlign) (o : MergeOpts) (contigs : Nat → Option ContigRec)
    (totalContigs : Nat) : PartState → PartState → Prop
  | refl (s : PartState) : Steps L o contigs totalContigs s s
  | tail {s s' : PartState} (a : Nat) (ca : ContigRec) (h : Hit) :
      Steps L o contigs totalContigs s s' → contigs a = some ca →
      Steps L o contigs totalContigs s (processHit L o contigs totalContigs a ca s' h).1

/-! ### Pair files (`partition.h:271-331`) -/

/-- `writeAlignedPairs` (`partition.h:271-280`): emit `i1 i2\n` for every
pair in set-iteration order.  A file is modelled as its whitespace-separated
token list. -/
def writeAlignedPairs (alignedPairs : PairSet) : List (List Char) :=
  alignedPairs.flatMap (fun p => [natRepr p.1, natRepr p.2])

/-- One iteration of the `while (stream >> key >> val)` loop of
`readAlignedPairs` (`partition.h:304-324`).  Array accesses of the SeqAn
union-find are only defined in bounds, so an id `≥ uf.size` yields `none`
(undefined behaviour); `some` carries the updated union-find and pair set.
The skip of an already-joined pair returns the state unchanged. -/
def readPairStep (uf : UnionFind) (alignedPairs : PairSet) (len k v : Nat) :
    Option (UnionFind × PairSet) :=
  -- findSet(uf, key), findSet(uf, val) in the skip test access slots k, v
  if k < uf.size ∧ v < uf.size then
    let kRev := if k < len then k + len else k - len
    let vRev := if v < len then v + len else v - len
    if findSet uf k = findSet uf v then some (uf, alignedPairs)
    -- the reverse-complement joins access slots kRev, vRev
    else if kRev < uf.size ∧ vRev < uf.size then
      let pairs1 := pairInsert (k, v) alignedPairs
      let uf1 := joinSets uf (findSet uf k) (findSet uf v)
      let uf2 := joinSets uf1 (findSet uf1 kRev) (findSet uf1 vRev)
      some (uf2, pairs1)
    else none
  else none

/-- `readAlignedPairs` at the level of already-parsed pairs. -/
def readPairsList (uf : UnionFind) (alignedPairs : PairSet) (len : Nat) :
    List (Nat × Nat) → Option (UnionFind × PairSet)
  | [] => some (uf, alignedPairs)
  | (k, v) :: rest =>
    match readPairStep uf alignedPairs len k v with
    | none => none
    | some r => readPairsList r.1 r.2 len rest

/-- Fuel bound for the extraction loop: every successful extraction consumes
at least one character, so the total character count plus one bounds the
number of iterations. -/
def tokensFuel (toks : List (List Char)) : Nat :=
  (toks.map List.length).sum + 1

/-- The `while (stream >> key >> val)` loop of `readAlignedPairs`
(`partition.h:286-331`) with structural fuel.  When an extraction of the key
or of the value fails (end of file or a token without a numeric prefix) the
loop exits and the function returns success with the state reached so far. -/
def readAlignedPairsGo (len : Nat) :
    Nat → UnionFind → PairSet → List (List Char) → Option (UnionFind × PairSet)
  | 0, uf, alignedPairs, _ => some (uf, alignedPairs)
  | fuel + 1, uf, alignedPairs, toks =>
    match nextNum toks with
    | none => some (uf, alignedPairs)
    | some (k, toks1) =>
      match nextNum toks1 with
      | none => some (uf, alignedPairs)
      | some (v, toks2) =>
        match readPairStep uf alignedPairs len k v with
        | none => none
        | some r => readAlignedPairsGo len fuel r.1 r.2 toks2

/-- `readAlignedPairs` (`partition.h:286-331`) on a token list; `tokensFuel`
always suffices since every loop iteration consumes at least two characters. -/
def readAlignedPairs (uf : UnionFind) (alignedPairs : PairSet) (len : Nat)
    (toks : List (List Char)) : Option (UnionFind × PairSet) :=
  readAlignedPairsGo len (tokensFuel toks) uf alignedPairs toks

/-! ### Components (`partition.h:337-437`) -/

/-- A `std::map<TSize, ContigComponent>` reduced to the data the claims
concern: per key, the component's `alignedPairs` set.  Keys are kept sorted
ascending as in `std::map` iteration order. -/
abbrev CompMap := List (Nat × PairSet)

/-- Update the entry of key `k` (creating it from the empty set if absent),
keeping keys sorted. -/
def compUpdate (m : CompMap) (k : Nat) (f : PairSet → PairSet) : CompMap :=
  match m with
  | [] => [(k, f [])]
  | (k', s) :: t =>
    if k < k' then (k, f []) :: (k', s) :: t
    else if k = k' then (k', f s) :: t
    else (k', s) :: compUpdate t k f

/-- `components[i];` — default-construct the entry if absent. -/
def compTouch (m : CompMap) (k : Nat) : CompMap := compUpdate m k id

/-- `components.count(k)`-style lookup. -/
def compLookup : CompMap → Nat → Option PairSet
  | [], _ => none
  | (k', s) :: t, k => if k = k' then some s else compLookup t k

/-- `unionFindToComponents` (`partition.h:337-388`): map every aligned pair
to the component keyed by `min(findSet(i1), findSet(rc(i1)))` and store the
pair, its swap and the reverse-complement twin pair symmetrically.  The
size-based skipping is commented out in the source, so the returned
`skipped` set is always empty and is omitted here. -/
def u2cStep (uf : UnionFind) (totalContigs : Nat) (components : CompMap)
    (p : Nat × Nat) : CompMap :=
  let rev1 := globalIndexRC p.1 totalContigs
  let rev2 := globalIndexRC p.2 totalContigs
  let set := min (findSet uf p.1) (findSet uf rev1)
  compUpdate components set
    (fun s => pairInsert (rev2, rev1) (pairInsert (rev1, rev2)
                (pairInsert (p.2, p.1) (pairInsert (p.1, p.2) s))))

def unionFindToComponents (uf : UnionFind) (alignedPairs : PairSet)
    (totalContigs : Nat) : CompMap :=
  alignedPairs.foldl (u2cStep uf totalContigs) []

/-- Loop of `addSingletons` (`partition.h:394-414`): iteration `i` of
`for (i = 0; i < totalContigs; ++i)` with `d = totalContigs - i` iterations
left. -/
def addSingletonsGo (skipped : List Nat) (uf : UnionFind) :
    Nat → Nat → CompMap → CompMap
  | 0, _, components => components
  | d + 1, i, components =>
    addSingletonsGo skipped uf d (i + 1)
      (if i ∉ skipped ∧ compLookup components i = none ∧ findSet uf i = i
       then compTouch components i else components)

/-- `addSingletons` (`partition.h:394-414`): for `i` in `[0, totalContigs)`,
create an empty component for every unskipped root id without a component. -/
def addSingletons (components : CompMap) (skipped : List Nat) (uf : UnionFind)
    (totalContigs : Nat) : CompMap :=
  addSingletonsGo skipped uf totalContigs 0 components

/-- Batch filter at the end of `readAndMergeComponents`
(`partition.h:470-483`): keep the components whose position in map order is
congruent to `batchNumber` modulo `totalBatches`. -/
def keepBatch (components : CompMap) (totalBatches batchNumber : Nat) : CompMap :=
  if totalBatches = 1 then components
  else (components.enum.filter (fun e => e.1 % totalBatches = batchNumber)).map (·.2)

/-- `readAndMergeComponents` (`partition.h:443-486`): read all pair files
into a fresh union-find over `2 * contigsInTotal` ids, derive components,
add singletons for ids in `[0, contigsInTotal)` and keep the own batch. -/
def readAndMergeComponents (componentFiles : List (List (List Char)))
    (contigsInTotal totalBatches batchNumber : Nat) : Option CompMap :=
  let uf0 := freshUF (contigsInTotal * 2)
  match componentFiles.foldlM
      (fun r file => readAlignedPairs r.1 r.2 contigsInTotal file)
      ((uf0, []) : UnionFind × PairSet) with
  | none => none
  | some (uf, alignedPairs) =>
    let components := unionFindToComponents uf alignedPairs contigsInTotal
    let components := addSingletons components [] uf contigsInTotal
    some (keepBatch components totalBatches batchNumber)

/-! ### `bestDiagonal` (`popins_merge_seqs.h:201-255`) -/

/-- `maxValue<int>()`, the sentinel meaning "no diagonal / unbanded". -/
def maxIntValue : Int := 2147483647

/-- The q-gram of `s` starting at position `i`. -/
def qgramAt (s : List Char) (i q : Nat) : List Char := (s.drop i).take q

/-- Number of q-gram hits on counter index `c` (diagonal `c - len1`):
positions `i` of `seq2` and occurrences `j` of `seq2`'s q-gram in `seq1`
with `len1 + i - j = c`, as counted by the loop at
`popins_merge_seqs.h:228-238`. -/
def diagCounter (seq1 seq2 : List Char) (q c : Nat) : Nat :=
  ((List.range (seq2.length - q + 1)).flatMap
    (fun i => (List.range (seq1.length - q + 1)).filterMap
      (fun j => if qgramAt seq1 j q = qgramAt seq2 i q ∧ seq1.length + i - j = c
                then some (i, j) else none))).length

/-- The scan at `popins_merge_seqs.h:241-250`: first counter index with a
strictly maximal positive hit count, returned as a diagonal `i - len1`;
the sentinel if all counters are zero. -/
def bestDiagScan (seq1 seq2 : List Char) (q : Nat) : Int :=
  (List.range (seq1.length + seq2.length)).foldl
    (fun r c =>
      if r.2 < diagCounter seq1 seq2 q c
      then ((c : Int) - (seq1.length : Int), diagCounter seq1 seq2 q c)
      else r)
    (maxIntValue, 0) |>.1

/-- `bestDiagonal` (`popins_merge_seqs.h:201-255`).  The source recurses with
`qgramLength*2/3` whenever no q-gram hit was found; a shape of length 0 is
outside the SeqAn q-gram machinery's contract, so reaching `q = 0` is
undefined behaviour, and the recursion itself needs no a-priori bound: both
are modelled by a fuel parameter, `none` meaning that no defined result is
reached. -/
def bestDiagonal : Nat → List Char → List Char → Nat → Option Int
  | 0, _, _, _ => none
  | fuel + 1, seq1, seq2, qgramLength =>
    if qgramLength > seq1.length ∨ qgramLength > seq2.length then some maxIntValue
    else if qgramLength = 0 then none
    else
      let diag := bestDiagScan seq1 seq2 qgramLength
      if diag = maxIntValue then bestDiagonal fuel seq1 seq2 (qgramLength * 2 / 3)
      else some diag

/-! ### `ComponentGraph`, `Path` and path enumeration
(`popins_merge_seqs.h:15-150`) -/

/-- `Path`: sequence plus `std::map` from end offsets to vertices. -/
structure Path where
  seq : List Char
  positionMap : List (Nat × Nat)
  deriving DecidableEq

/-- `ComponentGraph`: adjacency lists (out-edges in iteration order), source
list and vertex labels (`sequenceMap`). -/
structure ComponentGraph where
  adj : List (List Nat)
  sources : List Nat
  labels : List (List Char)
  deriving DecidableEq

/-- Vertex label, `graph.sequenceMap[v]`. -/
def labelAt (g : ComponentGraph) (v : Nat) : List Char := g.labels.getD v []

/-- Out-neighbour list of `v`. -/
def adjOf (g : ComponentGraph) (v : Nat) : List Nat := g.adj.getD v []

/-- `std::map::operator[] =`: insert or overwrite, keeping keys sorted. -/
def mapSet (m : List (Nat × Nat)) (k v : Nat) : List (Nat × Nat) :=
  match m with
  | [] => [(k, v)]
  | (k', v') :: t =>
    if k < k' then (k, v) :: (k', v') :: t
    else if k = k' then (k, v) :: t
    else (k', v') :: mapSet t k v

/-- Lines 112-113 of `enumeratePathsDfs`: append the label of `v` to the
path and record `v` at the new end offset. -/
def extendPath (g : ComponentGraph) (p : Path) (v : Nat) : Path :=
  let seq1 := p.seq ++ labelAt g v
  { seq := seq1, positionMap := mapSet p.positionMap seq1.length v }

/-- `enumeratePathsDfs` (`popins_merge_seqs.h:99-129`), with fuel for the
recursion depth (the source assumes an acyclic graph); `none` means the fuel
ran out.  The out-edge loop recurses into each child with a copy of the
extended path, aborting on fuel exhaustion (`foldlM` over `Option`). -/
def enumeratePathsDfs (g : ComponentGraph) :
    Nat → Nat → Path → List Path → Option (List Path)
  | 0, _, _, _ => none
  | fuel + 1, v, prevPath, paths =>
    let p := extendPath g prevPath v
    if adjOf g v = [] then some (paths ++ [p])
    else (adjOf g v).foldlM (fun acc c => enumeratePathsDfs g fuel c p acc) paths

/-- The source loop of `enumeratePaths` (`popins_merge_seqs.h:135-150`). -/
def enumerateFromSources (g : ComponentGraph) (fuel : Nat) :
    List Nat → List Path → Option (List Path)
  | [], paths => some paths
  | s :: rest, paths =>
    match enumeratePathsDfs g fuel s ⟨[], []⟩ paths with
    | none => none
    | some paths1 => enumerateFromSources g fuel rest paths1

/-- `enumeratePaths`: depth-first path enumeration from every source. -/
def enumeratePaths (g : ComponentGraph) (fuel : Nat) : Option (List Path) :=
  enumerateFromSources g fuel g.sources []

/-! ### `getSeqsByAlignOrder` (`popins_merge_seqs.h:156-195`) -/

/-- The component data used by `constructSupercontigs`: the aligned pair set
plus the `ids`/`contigs` strings filled by `getSeqsByAlignOrder`. -/
structure ContigComponent where
  alignedPairs : PairSet
  ids : List (List Char)
  contigs : List (List Char)
  deriving DecidableEq

/-- The `lower_bound`/`upper_bound` scan at `popins_merge_seqs.h:173-174`:
the second entries of the pairs whose first entry is `x`, in set order. -/
def neighborsOf (alignedPairs : PairSet) (x : Nat) : List Nat :=
  (alignedPairs.filter (fun p => p.1 = x)).map (·.2)

/-- The breadth-first `while` loop of `getSeqsByAlignOrder`
(`popins_merge_seqs.h:171-185`).  The `ordered` companion set always holds
exactly the members of `order`, so membership is tested on `order` itself.
The fuel is chosen by the caller large enough for the loop to reach
`i = length(order)`. -/
def alignOrderGo (alignedPairs : PairSet) :
    Nat → List Nat → Nat → List Nat
  | 0, order, _ => order
  | fuel + 1, order, i =>
    match order.get? i with
    | none => order
    | some x =>
      alignOrderGo alignedPairs fuel
        ((neighborsOf alignedPairs x).foldl
          (fun o n => if n ∈ o then o else o ++ [n]) order)
        (i + 1)

/-- `getSeqsByAlignOrder` (`popins_merge_seqs.h:156-195`).  The function
starts from `(*component.alignedPairs.begin()).i1`; on an empty set this
dereferences the past-the-end iterator, which is undefined behaviour,
modelled as `none`. -/
def getSeqsByAlignOrder (component : ContigComponent)
    (contigs : Nat → List Char) (contigIds : Nat → List Char) :
    Option ContigComponent :=
  match component.alignedPairs with
  | [] => none
  | p :: _ =>
    let order := alignOrderGo component.alignedPairs
      (component.alignedPairs.length + 2) [p.1] 0
    some { component with
           ids := component.ids ++ order.map contigIds,
           contigs := component.contigs ++ order.map contigs }

/-! ### `writeSupercontigs` and `constructSupercontigs`
(`popins_merge_seqs.h:439-548`) -/

/-- Decimal rendering of an `int`. -/
def intRepr (z : Int) : List Char :=
  if z < 0 then '-' :: natRepr z.natAbs else natRepr z.natAbs

/-- FASTA header written for merged sequence number `i`
(`>COMPONENT_<batchIndex>.<pos>_<tag>_length_<L>_size_<N>`). -/
def superHeader (batchIndex : Int) (pos : Nat) (tag : List Char)
    (len size : Nat) : List Char :=
  ('>' :: ("COMPONENT_").toList) ++ intRepr batchIndex ++ ['.'] ++ natRepr pos
    ++ ['_'] ++ tag ++ ("_length_").toList ++ natRepr len
    ++ ("_size_").toList ++ natRepr size

/-- `writeSupercontigs` (`popins_merge_seqs.h:439-465`): emit header and
sequence lines; single-letter tags `char('a'+i)` when
`length(mergedSeqs) <= 25`, else two-letter tags
`char('a'+i/26) char('a'+i%26)`. -/
def writeSupercontigs (mergedSeqs : List (List Char)) (contigs : List (List Char))
    (batchIndex : Int) (pos : Nat) : List (List Char) :=
  if mergedSeqs.length ≤ 25 then
    mergedSeqs.enum.flatMap (fun e =>
      [superHeader batchIndex pos [Char.ofNat (97 + e.1)] e.2.length contigs.length,
       e.2])
  else
    mergedSeqs.enum.flatMap (fun e =>
      [superHeader batchIndex pos
         [Char.ofNat (97 + e.1 / 26), Char.ofNat (97 + e.1 % 26)] e.2.length contigs.length,
       e.2])

/-- The tag of record `i` among `n` merged sequences, as written by
`writeSupercontigs`. -/
def superTag (n i : Nat) : List Char :=
  if n ≤ 25 then [Char.ofNat (97 + i)]
  else [Char.ofNat (97 + i / 26), Char.ofNat (97 + i % 26)]

/-- The component loop of `constructSupercontigs`
(`popins_merge_seqs.h:487-537`), over the entries of the components map in
key order.  `mergeOracle` abstracts `mergeSequences` (`none` = gave up on a
very branching component); `none` overall means the undefined dereference in
`getSeqsByAlignOrder` was reached.  `pos` is incremented exactly where the
source does. -/
def constructGo (contigs : Nat → List Char) (contigIds : Nat → List Char)
    (numContigFiles : Nat) (mergeOracle : List (List Char) → Option (List (List Char)))
    (batchIndex : Int) :
    List (Nat × PairSet) → Nat → List (List Char) → Option (List (List Char))
  | [], _, out => some out
  | (_, alignedPairs) :: rest, pos, out =>
    match getSeqsByAlignOrder ⟨alignedPairs, [], []⟩ contigs contigIds with
    | none => none
    | some component =>
      if component.contigs.length > 10 * numContigFiles then
        constructGo contigs contigIds numContigFiles mergeOracle batchIndex rest pos out
      else if component.contigs.length = 1 then
        constructGo contigs contigIds numContigFiles mergeOracle batchIndex rest pos
          (out ++ [('>' :: component.ids.getD 0 []), component.contigs.getD 0 []])
      else
        match mergeOracle component.contigs with
        | none =>
          constructGo contigs contigIds numContigFiles mergeOracle batchIndex rest (pos + 1) out
        | some mergedSeqs =>
          constructGo contigs contigIds numContigFiles mergeOracle batchIndex rest (pos + 1)
            (out ++ writeSupercontigs mergedSeqs component.contigs batchIndex pos)

/-- `constructSupercontigs` (`popins_merge_seqs.h:471-548`): process every
component of the map, calling `getSeqsByAlignOrder` on each before any size
or singleton check. -/
def constructSupercontigs (components : CompMap) (contigs : Nat → List Char)
    (contigIds : Nat → List Char) (numContigFiles : Nat)
    (mergeOracle : List (List Char) → Option (List (List Char)))
    (batchIndex : Int) : Option (List (List Char)) :=
  constructGo contigs contigIds numContigFiles mergeOracle batchIndex components 0 []

/-! ### `averageEntropy` (`partition.h:16-46`) -/

/-- `ordValue` on the contig alphabet (`Dna5`): `A C G T N ↦ 0 1 2 3 4`;
other characters do not occur in contigs and are mapped like `A`. -/
def ordValueD (c : Char) : Nat :=
  if c = 'A' then 0 else if c = 'C' then 1 else if c = 'G' then 2
  else if c = 'T' then 3 else if c = 'N' then 4 else 0

/-- The counting loop of `averageEntropy` (`partition.h:26-33`): iteration
`i` of `for (i = 0; i < bound; ++i)` with `d = bound - i` iterations left,
where `bound = (length(seq) - 1) % 2^64` (unsigned wrap-around).  Sequence
accesses out of range are undefined behaviour, modelled as `none`.  State:
the 16 dinucleotide counters and `counted`. -/
def diCountGo (seq : List Char) : Nat → Nat → List Nat × Nat → Option (List Nat × Nat)
  | 0, _, st => some st
  | d + 1, i, st =>
    match seq.get? i, seq.get? (i + 1) with
    | some x, some y =>
      diCountGo seq d (i + 1)
        (if x ≠ 'N' ∧ y ≠ 'N'
         then (st.1.set (ordValueD x + 4 * ordValueD y)
                 (st.1.getD (ordValueD x + 4 * ordValueD y) 0 + 1),
               st.2 + 1)
         else st)
    | _, _ => none

/-- Dinucleotide counting phase of `averageEntropy`. -/
def diCount (seq : List Char) : Option (List Nat × Nat) :=
  diCountGo seq ((seq.length + POW64 - 1) % POW64) 0 (List.replicate 16 0, 0)

/-- The entropy accumulation loop of `averageEntropy` (`partition.h:36-43`).
`log2q` abstracts the floating-point `log(p)/log(2)`; zero counters are
skipped, so the division by `counted` is never reached when `counted = 0`. -/
def entropySum (log2q : ℚ → ℚ) (diCounts : List Nat) (counted : Nat) : ℚ :=
  diCounts.foldl
    (fun (entropy : ℚ) (c : Nat) =>
      if c = 0 then entropy
      else entropy - ((c : ℚ) / (counted : ℚ)) * log2q ((c : ℚ) / (counted : ℚ)))
    0

/-- `averageEntropy` (`partition.h:16-46`): count dinucleotides, accumulate
the entropy of the counts and return a quarter of it (`none` propagates the
out-of-range access of the counting loop). -/
def averageEntropy (log2q : ℚ → ℚ) (seq : List Char) : Option ℚ :=
  (diCount seq).map (fun r => entropySum log2q r.1 r.2 / 4)

/-! ### Concrete example instances

Small inputs used to evaluate the embedded functions on closed terms. -/

/-- A score oracle that always reports a high alignment score. -/
def exL : LocalAlign := fun _ _ _ _ _ _ => 1000

/-- Example options: match 1, penalty -2, minScore 100. -/
def exOpts : MergeOpts := ⟨1, -2, 100⟩

/-- Four single-base contigs from four different samples. -/
def exContigs4 : Nat → Option ContigRec := fun i =>
  if i < 4 then some ⟨i, ['A']⟩ else none

/-- Two single-base contigs from two different samples. -/
def exContigs2 : Nat → Option ContigRec := fun i =>
  if i < 2 then some ⟨i, ['A']⟩ else none

/-- A SWIFT hit against pattern sequence `b` on the main diagonal. -/
def exHit (b : Nat) : Hit := ⟨b, 0, 0, 0, 0⟩

/-- Hits of contig 0 against 2 then 1, and of contig 2 against 3. -/
def exGroups4 : List (Nat × List Hit) := [(0, [exHit 2, exHit 1]), (2, [exHit 3])]

/-- A single hit of contig 0 against contig 1. -/
def exGroups2 : List (Nat × List Hit) := [(0, [exHit 1])]

/-- Partitioning run over `exGroups4` (insertion order (0,2), (0,1), (2,3)). -/
def exRun4 : PartState :=
  partitionContigs exL exOpts exContigs4 4 exGroups4 (freshPartState (2 * 4))

/-- Partitioning run over `exGroups2` (single insertion (0,1)). -/
def exRun2 : PartState :=
  partitionContigs exL exOpts exContigs2 2 exGroups2 (freshPartState (2 * 2))

/-- A two-vertex component graph: source 0 labelled `A`, child 1 labelled
`BB`. -/
def exGraph : ComponentGraph := ⟨[[1], []], [0], [['A'], ['B', 'B']]⟩

/-- The unique path of `exGraph`. -/
def exPath : Path := ⟨['A', 'B', 'B'], [(1, 0), (3, 1)]⟩

/-! ## Lemmas -/

/-! ### Decimal round trip -/

theorem natReprGo_ne_nil (fuel n : Nat) : natReprGo (fuel + 1) n ≠ [] := by
  rw [natReprGo]
  split <;> simp

theorem natRepr_ne_nil (n : Nat) : natRepr n ≠ [] := natReprGo_ne_nil n n

theorem digitChar_isDigit {d : Nat} (hd : d < 10) : (digitChar d).isDigit = true := by
  interval_cases d <;> rfl

theorem digitChar_toNat {d : Nat} (hd : d < 10) : (digitChar d).toNat = 48 + d := by
  interval_cases d <;> rfl

theorem natReprGo_digits (fuel : Nat) :
    ∀ n : Nat, ∀ c ∈ natReprGo fuel n, c.isDigit = true := by
  induction fuel with
  | zero => intro n c hc; simp [natReprGo] at hc
  | succ fuel ih =>
    intro n c hc
    rw [natReprGo] at hc
    by_cases h : n < 10
    · rw [if_pos h] at hc
      simp only [List.mem_singleton] at hc
      subst hc
      exact digitChar_isDigit h
    · rw [if_neg h] at hc
      rcases List.mem_append.mp hc with h1 | h2
      · exact ih (n / 10) c h1
      · have hc2 : c = digitChar (n % 10) := by simpa using h2
        subst hc2
        exact digitChar_isDigit (Nat.mod_lt n (by omega : (0:Nat) < 10))

theorem natRepr_digits (n : Nat) : ∀ c ∈ natRepr n, c.isDigit = true :=
  natReprGo_digits (n + 1) n

theorem foldl_digits_natReprGo :
    ∀ (fuel n : Nat), n < fuel → ∀ acc : Nat,
      (natReprGo fuel n).foldl (fun acc c => acc * 10 + (c.toNat - 48)) acc
        = acc * 10 ^ (natReprGo fuel n).length + n := by
  intro fuel
  induction fuel with
  | zero => intro n hn; omega
  | succ fuel ih =>
    intro n hn acc
    rw [natReprGo]
    split
    · next h =>
      simp only [List.foldl_cons, List.foldl_nil, digitChar_toNat h, List.length_singleton,
        pow_one]
      omega
    · next h =>
      have hdiv : n / 10 < fuel := by
        have := Nat.div_lt_self (show 0 < n by omega) (show 1 < 10 by omega)
        omega
      rw [List.foldl_append]
      rw [ih (n / 10) hdiv acc]
      simp only [List.foldl_cons, List.foldl_nil,
        digitChar_toNat (Nat.mod_lt n (by omega : (0:Nat) < 10)),
        List.length_append, List.length_singleton]
      rw [pow_succ, ← mul_assoc]
      generalize acc * (10 : Nat) ^ (natReprGo fuel (n / 10)).length = A
      omega

theorem digitsToVal_natRepr (n : Nat) : digitsToVal (natRepr n) = n := by
  rw [digitsToVal, natRepr, foldl_digits_natReprGo (n + 1) n (by omega) 0]
  simp

theorem extractNum_natRepr {k : Nat} (hk : k < POW64) :
    extractNum (natRepr k) = some (k, []) := by
  obtain ⟨c, cs, hcons⟩ : ∃ c cs, natRepr k = c :: cs := by
    cases h : natRepr k with
    | nil => exact absurd h (natRepr_ne_nil k)
    | cons c cs => exact ⟨c, cs, rfl⟩
  have hd : c.isDigit = true := natRepr_digits k c (by rw [hcons]; simp)
  have hplus : ¬ (natRepr k).head? = some '+' := by
    rw [hcons, List.head?_cons]
    intro h
    have hc : c = '+' := by injection h
    rw [hc] at hd
    exact absurd hd (by decide)
  have hminus : ¬ (natRepr k).head? = some '-' := by
    rw [hcons, List.head?_cons]
    intro h
    have hc : c = '-' := by injection h
    rw [hc] at hd
    exact absurd hd (by decide)
  have hall : ∀ c' ∈ natRepr k, Char.isDigit c' = true := natRepr_digits k
  have htake : (natRepr k).takeWhile Char.isDigit = natRepr k :=
    List.takeWhile_eq_self_iff.mpr hall
  have hdrop : (natRepr k).dropWhile Char.isDigit = [] :=
    List.dropWhile_eq_nil_iff.mpr hall
  rw [extractNum]
  simp only [if_neg (not_or.mpr ⟨hplus, hminus⟩), if_neg hminus, htake, hdrop,
    if_neg (natRepr_ne_nil k), digitsToVal_natRepr, if_pos hk]

theorem extractNum_neg {v : Nat} (h0 : 0 < v) (hv : v < POW64) :
    extractNum ('-' :: natRepr v) = some (POW64 - v, []) := by
  have hall : ∀ c ∈ natRepr v, Char.isDigit c = true := natRepr_digits v
  have htake : (natRepr v).takeWhile Char.isDigit = natRepr v :=
    List.takeWhile_eq_self_iff.mpr hall
  have hdrop : (natRepr v).dropWhile Char.isDigit = [] :=
    List.dropWhile_eq_nil_iff.mpr hall
  have hsign : ('-' :: natRepr v).head? = some '+' ∨ ('-' :: natRepr v).head? = some '-' :=
    Or.inr rfl
  rw [extractNum]
  simp only [if_pos hsign, List.tail_cons, htake, hdrop, if_neg (natRepr_ne_nil v),
    digitsToVal_natRepr, if_pos hv, if_pos (rfl : ('-' :: natRepr v).head? = some '-')]
  rw [Nat.mod_eq_of_lt (Nat.sub_lt (by decide) h0)]
  simp

theorem nextNum_natRepr {k : Nat} (hk : k < POW64) (rest : List (List Char)) :
    nextNum (natRepr k :: rest) = some (k, rest) := by
  rw [nextNum, extractNum_natRepr hk]
  rfl

/-! ### Pair sets -/

theorem mem_pairInsert (p q : Nat × Nat) (l : PairSet) :
    q ∈ pairInsert p l ↔ q = p ∨ q ∈ l := by
  induction l with
  | nil => simp [pairInsert]
  | cons r t ih =>
    rw [pairInsert]
    split
    · simp [or_comm, or_assoc, eq_comm]
    · split
      · next hpr => subst hpr; simp
      · simp only [List.mem_cons, ih]; tauto

/-! ### Insertion conditions of `partitionContigs` -/

/-- `p` is inserted by the very next SWIFT hit processed in state `s'`, and
at that moment its alignment score beats `minScore`, the two contigs belong
to different samples and their ids lie in distinct union-find components. -/
def InsertedAt (L : LocalAlign) (o : MergeOpts) (contigs : Nat → Option ContigRec)
    (totalContigs : Nat) (p : Nat × Nat) (s' : PartState) : Prop :=
  ∃ a ca h cb, contigs a = some ca ∧ contigs h.b = some cb ∧ p = (a, h.b) ∧
    p ∉ s'.pairs ∧
    p ∈ ((processHit L o contigs totalContigs a ca s' h).1).pairs ∧
    L ca.seq cb.seq o.matchScore o.errorPenalty (hitLowerDiag h o) (hitUpperDiag h o)
      > o.minScore ∧
    ca.pn ≠ cb.pn ∧
    findSet s'.uf a ≠ findSet s'.uf h.b

theorem Steps.trans {L : LocalAlign} {o : MergeOpts} {contigs : Nat → Option ContigRec}
    {totalContigs : Nat} {s s' s'' : PartState}
    (h1 : Steps L o contigs totalContigs s s')
    (h2 : Steps L o contigs totalContigs s' s'') :
    Steps L o contigs totalContigs s s'' := by
  induction h2 with
  | refl => exact h1
  | tail a ca h _ hca ih => exact Steps.tail a ca h ih hca

theorem processHit_mem (L : LocalAlign) (o : MergeOpts) (contigs : Nat → Option ContigRec)
    (totalContigs : Nat) (a : Nat) (ca : ContigRec) (hca : contigs a = some ca)
    (s : PartState) (h : Hit) (p : Nat × Nat)
    (hp : p ∈ ((processHit L o contigs totalContigs a ca s h).1).pairs) :
    p ∈ s.pairs ∨ InsertedAt L o contigs totalContigs p s := by
  by_cases hmem : p ∈ s.pairs
  · exact Or.inl hmem
  right
  have hp0 := hp
  rw [processHit] at hp
  cases hcb : contigs h.b with
  | none => rw [hcb] at hp; exact absurd hp hmem
  | some cb =>
    rw [hcb] at hp
    simp only [] at hp
    by_cases hpn : ca.pn = cb.pn
    · rw [if_pos hpn] at hp; exact absurd hp hmem
    rw [if_neg hpn] at hp
    by_cases huf : findSet s.uf a = findSet s.uf h.b
    · rw [if_pos huf] at hp; exact absurd hp hmem
    rw [if_neg huf] at hp
    by_cases hal : pairwiseAlignment L ca.seq cb.seq o.matchScore o.errorPenalty
        (hitLowerDiag h o) (hitUpperDiag h o) o.minScore
    · rw [if_neg (by simpa using hal)] at hp
      simp only [mem_pairInsert] at hp
      rcases hp with hp | hp
      · exact ⟨a, ca, h, cb, hca, hcb, hp, hmem, hp0,
          by simpa [pairwiseAlignment] using hal, hpn, huf⟩
      · exact absurd hp hmem
    · rw [if_pos (by simpa using hal)] at hp
      exact absurd hp hmem

theorem steps_processHits (L : LocalAlign) (o : MergeOpts)
    (contigs : Nat → Option ContigRec) (totalContigs : Nat) (a : Nat) (ca : ContigRec)
    (hca : contigs a = some ca) (s0 : PartState) (hits : List Hit) :
    ∀ s : PartState, Steps L o contigs totalContigs s0 s →
      Steps L o contigs totalContigs s0 (processHits L o contigs totalContigs a ca s hits) := by
  induction hits with
  | nil => intro s hs; exact hs
  | cons h t ih =>
    intro s hs
    rw [processHits]
    have hstep : Steps L o contigs totalContigs s0
        (processHit L o contigs totalContigs a ca s h).1 :=
      Steps.tail a ca h hs hca
    split
    · exact hstep
    · exact ih _ hstep

theorem steps_partitionContigs (L : LocalAlign) (o : MergeOpts)
    (contigs : Nat → Option ContigRec) (totalContigs : Nat)
    (groups : List (Nat × List Hit)) (s0 : PartState) :
    ∀ s : PartState, Steps L o contigs totalContigs s0 s →
      Steps L o contigs totalContigs s0 (partitionContigs L o contigs totalContigs groups s) := by
  induction groups with
  | nil => intro s hs; exact hs
  | cons g rest ih =>
    intro s hs
    rw [partitionContigs]
    cases hca : contigs g.1 with
    | none => exact ih _ (by simpa [hca] using hs)
    | some ca =>
      refine ih _ ?_
      simp only [hca]
      exact steps_processHits L o contigs totalContigs g.1 ca hca s0 g.2 s hs

theorem processHits_mem (L : LocalAlign) (o : MergeOpts)
    (contigs : Nat → Option ContigRec) (totalContigs : Nat) (a : Nat) (ca : ContigRec)
    (hca : contigs a = some ca) (hits : List Hit) (p : Nat × Nat) :
    ∀ s : PartState, p ∈ (processHits L o contigs totalContigs a ca s hits).pairs →
      p ∈ s.pairs ∨ ∃ s', Steps L o contigs totalContigs s s' ∧
        InsertedAt L o contigs totalContigs p s' := by
  induction hits with
  | nil => intro s hp; exact Or.inl hp
  | cons h t ih =>
    intro s hp
    rw [processHits] at hp
    have hone : p ∈ ((processHit L o contigs totalContigs a ca s h).1).pairs →
        p ∈ s.pairs ∨ ∃ s', Steps L o contigs totalContigs s s' ∧
          InsertedAt L o contigs totalContigs p s' := by
      intro hin
      rcases processHit_mem L o contigs totalContigs a ca hca s h p hin with hmem | hins
      · exact Or.inl hmem
      · exact Or.inr ⟨s, Steps.refl s, hins⟩
    split at hp
    · exact hone hp
    · rcases ih _ hp with hmem | ⟨s', hsteps, hins⟩
      · exact hone hmem
      · exact Or.inr ⟨s', Steps.trans (Steps.tail a ca h (Steps.refl s) hca) hsteps, hins⟩

theorem partitionContigs_mem (L : LocalAlign) (o : MergeOpts)
    (contigs : Nat → Option ContigRec) (totalContigs : Nat)
    (groups : List (Nat × List Hit)) (p : Nat × Nat) :
    ∀ s : PartState, p ∈ (partitionContigs L o contigs totalContigs groups s).pairs →
      p ∈ s.pairs ∨ ∃ s', Steps L o contigs totalContigs s s' ∧
        InsertedAt L o contigs totalContigs p s' := by
  induction groups with
  | nil => intro s hp; exact Or.inl hp
  | cons g rest ih =>
    intro s hp
    rw [partitionContigs] at hp
    cases hca : contigs g.1 with
    | none =>
      rw [hca] at hp
      exact ih s hp
    | some ca =>
      rw [hca] at hp
      rcases ih _ hp with hmem | ⟨s', hsteps, hins⟩
      · rcases processHits_mem L o contigs totalContigs g.1 ca hca g.2 p s hmem with
          hmem' | ⟨s', hsteps, hins⟩
        · exact Or.inl hmem'
        · exact Or.inr ⟨s', hsteps, hins⟩
      · exact Or.inr ⟨s',
          Steps.trans (steps_processHits L o contigs totalContigs g.1 ca hca s g.2 s
            (Steps.refl s)) hsteps, hins⟩

/-! ### Pair-file round trip: replaying the insertion trace -/

theorem joinSets_size (uf : UnionFind) (x y : Nat) : (joinSets uf x y).size = uf.size := by
  rw [joinSets]
  split
  · rfl
  · split <;> rfl

theorem readPairsList_append (len : Nat) (t1 t2 : List (Nat × Nat)) :
    ∀ (uf : UnionFind) (ps : PairSet),
      readPairsList uf ps len (t1 ++ t2)
        = match readPairsList uf ps len t1 with
          | none => none
          | some r => readPairsList r.1 r.2 len t2 := by
  induction t1 with
  | nil => intro uf ps; rfl
  | cons kv rest ih =>
    intro uf ps
    rw [List.cons_append, readPairsList, readPairsList]
    cases readPairStep uf ps len kv.1 kv.2 with
    | none => rfl
    | some r => exact ih r.1 r.2

theorem readPairsList_one (uf : UnionFind) (ps : PairSet) (len k v : Nat) :
    readPairsList uf ps len [(k, v)] = readPairStep uf ps len k v := by
  rw [readPairsList]
  cases hstep : readPairStep uf ps len k v with
  | none => rfl
  | some r =>
    obtain ⟨u, p⟩ := r
    rfl

theorem processHit_replay (L : LocalAlign) (o : MergeOpts)
    (contigs : Nat → Option ContigRec) (totalContigs : Nat) (a : Nat) (ca : ContigRec)
    (s : PartState) (h : Hit) (ha : a < totalContigs) (hb : h.b < totalContigs)
    (hsz : s.uf.size = 2 * totalContigs) :
    ∃ t, (processHit L o contigs totalContigs a ca s h).1.trace = s.trace ++ t ∧
      (processHit L o contigs totalContigs a ca s h).1.uf.size = s.uf.size ∧
      readPairsList s.uf s.pairs totalContigs t
        = some ((processHit L o contigs totalContigs a ca s h).1.uf,
                (processHit L o contigs totalContigs a ca s h).1.pairs) := by
  rw [processHit]
  cases hcb : contigs h.b with
  | none => exact ⟨[], by simp, rfl, rfl⟩
  | some cb =>
    simp only []
    by_cases hpn : ca.pn = cb.pn
    · rw [if_pos hpn]; exact ⟨[], by simp, rfl, rfl⟩
    rw [if_neg hpn]
    by_cases huf : findSet s.uf a = findSet s.uf h.b
    · rw [if_pos huf]; exact ⟨[], by simp, rfl, rfl⟩
    rw [if_neg huf]
    by_cases hal : pairwiseAlignment L ca.seq cb.seq o.matchScore o.errorPenalty
        (hitLowerDiag h o) (hitUpperDiag h o) o.minScore
    · rw [if_neg (by simpa using hal)]
      refine ⟨[(a, h.b)], rfl, ?_, ?_⟩
      · simp only [joinSets_size]
      · have hbnd : (if a < totalContigs then a + totalContigs else a - totalContigs) < s.uf.size
            ∧ (if h.b < totalContigs then h.b + totalContigs else h.b - totalContigs) < s.uf.size := by
          rw [if_pos ha, if_pos hb]; omega
        rw [readPairsList_one, readPairStep]
        rw [if_pos ⟨by omega, by omega⟩]
        rw [if_neg huf]
        rw [if_pos hbnd]
        simp only [globalIndexRC]
    · rw [if_pos (by simpa using hal)]
      exact ⟨[], by simp, rfl, rfl⟩

theorem processHits_replay (L : LocalAlign) (o : MergeOpts)
    (contigs : Nat → Option ContigRec) (totalContigs : Nat) (a : Nat) (ca : ContigRec)
    (ha : a < totalContigs) (hits : List Hit) (hb : ∀ h ∈ hits, h.b < totalContigs) :
    ∀ s : PartState, s.uf.size = 2 * totalContigs →
      ∃ t, (processHits L o contigs totalContigs a ca s hits).trace = s.trace ++ t ∧
        (processHits L o contigs totalContigs a ca s hits).uf.size = s.uf.size ∧
        readPairsList s.uf s.pairs totalContigs t
          = some ((processHits L o contigs totalContigs a ca s hits).uf,
                  (processHits L o contigs totalContigs a ca s hits).pairs) := by
  induction hits with
  | nil => intro s _; exact ⟨[], by simp [processHits], rfl, rfl⟩
  | cons h rest ih =>
    intro s hsz
    obtain ⟨t1, htr1, hsz1, hrd1⟩ := processHit_replay L o contigs totalContigs a ca s h
      ha (hb h (by simp)) hsz
    rw [processHits]
    split
    · exact ⟨t1, htr1, hsz1, hrd1⟩
    · obtain ⟨t2, htr2, hsz2, hrd2⟩ := ih (fun h' hm => hb h' (by simp [hm])) _
        (by rw [hsz1, hsz])
      refine ⟨t1 ++ t2, ?_, ?_, ?_⟩
      · rw [htr2, htr1, List.append_assoc]
      · rw [hsz2, hsz1]
      · rw [readPairsList_append, hrd1]
        exact hrd2

theorem partitionContigs_replay (L : LocalAlign) (o : MergeOpts)
    (contigs : Nat → Option ContigRec) (totalContigs : Nat)
    (groups : List (Nat × List Hit))
    (hval : ∀ g ∈ groups, g.1 < totalContigs ∧ ∀ h ∈ g.2, h.b < totalContigs) :
    ∀ s : PartState, s.uf.size = 2 * totalContigs →
      ∃ t, (partitionContigs L o contigs totalContigs groups s).trace = s.trace ++ t ∧
        (partitionContigs L o contigs totalContigs groups s).uf.size = s.uf.size ∧
        readPairsList s.uf s.pairs totalContigs t
          = some ((partitionContigs L o contigs totalContigs groups s).uf,
                  (partitionContigs L o contigs totalContigs groups s).pairs) := by
  induction groups with
  | nil => intro s _; exact ⟨[], by simp [partitionContigs], rfl, rfl⟩
  | cons g rest ih =>
    intro s hsz
    rw [partitionContigs]
    cases hca : contigs g.1 with
    | none => exact ih (fun g' hm => hval g' (by simp [hm])) s hsz
    | some ca =>
      simp only []
      obtain ⟨t1, htr1, hsz1, hrd1⟩ := processHits_replay L o contigs totalContigs g.1 ca
        (hval g (by simp)).1 g.2 (hval g (by simp)).2 s hsz
      obtain ⟨t2, htr2, hsz2, hrd2⟩ := ih (fun g' hm => hval g' (by simp [hm])) _
        (by rw [hsz1, hsz])
      refine ⟨t1 ++ t2, ?_, ?_, ?_⟩
      · rw [htr2, htr1, List.append_assoc]
      · rw [hsz2, hsz1]
      · rw [readPairsList_append, hrd1]
        exact hrd2

theorem tokensFuel_write (L : List (Nat × Nat)) :
    L.length ≤ ((writeAlignedPairs L).map List.length).sum := by
  induction L with
  | nil => simp [writeAlignedPairs]
  | cons p rest ih =>
    have hw : writeAlignedPairs (p :: rest)
        = natRepr p.1 :: natRepr p.2 :: writeAlignedPairs rest := by
      simp [writeAlignedPairs]
    rw [hw]
    simp only [List.map_cons, List.sum_cons, List.length_cons]
    have h1 : 1 ≤ (natRepr p.1).length := List.length_pos.mpr (natRepr_ne_nil p.1)
    omega

theorem readAlignedPairsGo_write (len : Nat) :
    ∀ (L : List (Nat × Nat)), (∀ p ∈ L, p.1 < POW64 ∧ p.2 < POW64) →
      ∀ (fuel : Nat), L.length ≤ fuel →
        ∀ (uf : UnionFind) (ps : PairSet),
          readAlignedPairsGo len fuel uf ps (writeAlignedPairs L)
            = readPairsList uf ps len L := by
  intro L
  induction L with
  | nil =>
    intro _ fuel _ uf ps
    cases fuel with
    | zero => rfl
    | succ fuel => rfl
  | cons kv rest ih =>
    obtain ⟨k, v⟩ := kv
    intro hb fuel hfuel uf ps
    cases fuel with
    | zero =>
      exact absurd hfuel (by simp)
    | succ fuel =>
      have hw : writeAlignedPairs ((k, v) :: rest)
          = natRepr k :: natRepr v :: writeAlignedPairs rest := by
        simp [writeAlignedPairs]
      rw [hw, readAlignedPairsGo]
      rw [nextNum_natRepr (hb (k, v) (by simp)).1]
      simp only []
      rw [nextNum_natRepr (hb (k, v) (by simp)).2]
      simp only []
      rw [readPairsList]
      cases hstep : readPairStep uf ps len k v with
      | none => rfl
      | some r =>
        refine ih (fun p hp => hb p (by simp [hp])) fuel ?_ r.1 r.2
        have hlen : ((k, v) :: rest).length = rest.length + 1 := by simp
        omega

theorem readAlignedPairs_write (len : Nat) (ppairs : List (Nat × Nat))
    (hb : ∀ p ∈ ppairs, p.1 < POW64 ∧ p.2 < POW64) :
    ∀ (uf : UnionFind) (ps : PairSet),
      readAlignedPairs uf ps len (writeAlignedPairs ppairs)
        = readPairsList uf ps len ppairs := by
  intro uf ps
  rw [readAlignedPairs]
  refine readAlignedPairsGo_write len ppairs hb (tokensFuel (writeAlignedPairs ppairs)) ?_ uf ps
  have := tokensFuel_write ppairs
  rw [tokensFuel]
  omega

/-- A successful `readPairStep` had both ids in bounds and kept the
union-find size. -/
theorem readPairStep_cases (uf : UnionFind) (ps : PairSet) (len k v : Nat)
    (r : UnionFind × PairSet) (h : readPairStep uf ps len k v = some r) :
    r.1.size = uf.size ∧ k < uf.size ∧ v < uf.size := by
  have hb : k < uf.size ∧ v < uf.size := by
    by_contra hn
    rw [readPairStep, if_neg hn] at h
    exact absurd h (by simp)
  refine ⟨?_, hb⟩
  rw [readPairStep, if_pos hb] at h
  by_cases h2 : findSet uf k = findSet uf v
  · rw [if_pos h2] at h
    injection h with h'
    rw [← h']
  · rw [if_neg h2] at h
    by_cases h3 : (if k < len then k + len else k - len) < uf.size
        ∧ (if v < len then v + len else v - len) < uf.size
    · rw [if_pos h3] at h
      injection h with h'
      rw [← h']
      simp [joinSets_size]
    · rw [if_neg h3] at h
      exact absurd h (by simp)

/-- Along a successful `readPairsList` run every processed id is in bounds
of the (size-invariant) union-find. -/
theorem readPairsList_bounds (len : Nat) :
    ∀ (t : List (Nat × Nat)) (uf : UnionFind) (ps : PairSet),
      (readPairsList uf ps len t).isSome = true →
      ∀ p ∈ t, p.1 < uf.size ∧ p.2 < uf.size := by
  intro t
  induction t with
  | nil => intro uf ps _ p hp; simp at hp
  | cons kv rest ih =>
    obtain ⟨k, v⟩ := kv
    intro uf ps hsome p hp
    rw [readPairsList] at hsome
    cases hstep : readPairStep uf ps len k v with
    | none =>
      rw [hstep] at hsome
      simp at hsome
    | some r =>
      rw [hstep] at hsome
      obtain ⟨hsz, hk, hv⟩ := readPairStep_cases uf ps len k v r hstep
      rcases List.mem_cons.mp hp with heq | hmem
      · rw [heq]
        exact ⟨hk, hv⟩
      · have hrec := ih r.1 r.2 hsome p hmem
        rw [hsz] at hrec
        exact hrec

/-! ### Component maps -/

/-- The `std::map` representation invariant: keys strictly ascending. -/
def CompSorted (m : CompMap) : Prop := m.Pairwise (fun e1 e2 => e1.1 < e2.1)

theorem compLookup_eq_none (m : CompMap) (x : Nat) (h : ∀ e ∈ m, e.1 ≠ x) :
    compLookup m x = none := by
  induction m with
  | nil => rfl
  | cons e t ih =>
    rw [compLookup]
    rw [if_neg (fun hx => h e (by simp) (by simp [hx]))]
    exact ih (fun e' he' => h e' (by simp [he']))

theorem mem_compUpdate (m : CompMap) (k : Nat) (f : PairSet → PairSet) :
    ∀ e ∈ compUpdate m k f, e ∈ m ∨ ∃ s, e = (k, f s) ∧ (s = [] ∨ (k, s) ∈ m) := by
  induction m with
  | nil =>
    intro e he
    rw [compUpdate] at he
    simp at he
    exact Or.inr ⟨[], by simp [he], Or.inl rfl⟩
  | cons e0 t ih =>
    intro e he
    rw [compUpdate] at he
    split at he
    · rcases (by simpa using he) with h | h | h
      · exact Or.inr ⟨[], by simp [h], Or.inl rfl⟩
      · exact Or.inl (by simp [h])
      · exact Or.inl (by simp [h])
    · split at he
      · next hk =>
        rcases (by simpa using he) with h | h
        · subst hk
          exact Or.inr ⟨e0.2, by simp [h], Or.inr (by simp)⟩
        · exact Or.inl (by simp [h])
      · rcases (by simpa using he) with h | h
        · exact Or.inl (by simp [h])
        · rcases ih e h with h' | ⟨s, hs, hs'⟩
          · exact Or.inl (by simp [h'])
          · refine Or.inr ⟨s, hs, ?_⟩
            rcases hs' with h'' | h''
            · exact Or.inl h''
            · exact Or.inr (by simp [h''])

theorem compSorted_tail {e : Nat × PairSet} {t : CompMap}
    (h : CompSorted (e :: t)) : CompSorted t := by
  rw [CompSorted, List.pairwise_cons] at h
  exact h.2

theorem compSorted_head {e : Nat × PairSet} {t : CompMap}
    (h : CompSorted (e :: t)) : ∀ e' ∈ t, e.1 < e'.1 := by
  rw [CompSorted, List.pairwise_cons] at h
  exact h.1

theorem compLookup_compUpdate (k : Nat) (f : PairSet → PairSet) :
    ∀ m : CompMap, CompSorted m → ∀ x : Nat,
      compLookup (compUpdate m k f) x
        = if x = k then some (f ((compLookup m k).getD [])) else compLookup m x := by
  intro m
  induction m with
  | nil =>
    intro _ x
    by_cases hx : x = k <;> simp [compUpdate, compLookup, hx]
  | cons e t ih =>
    obtain ⟨k0, s0⟩ := e
    intro hs x
    rw [compUpdate]
    split
    · next hlt =>
      have hk0 : ¬ k = k0 := by omega
      have htk : compLookup t k = none := by
        refine compLookup_eq_none _ _ ?_
        intro e' he'
        have := compSorted_head hs e' he'
        simp only [] at this
        omega
      by_cases hx : x = k
      · simp [compLookup, hx, hk0, htk]
      · simp [compLookup, hx]
    · split
      · next hk =>
        subst hk
        by_cases hx : x = k
        · simp [compLookup, hx]
        · simp [compLookup, hx]
      · next hlt hne =>
        by_cases hx : x = k0
        · have hxk : ¬ x = k := by omega
          have hk0k : ¬ k0 = k := by omega
          simp [compLookup, hx, hxk, hne, hk0k]
        · simp [compLookup, hx, hne, ih (compSorted_tail hs) x]

theorem compUpdate_sorted (k : Nat) (f : PairSet → PairSet) :
    ∀ m : CompMap, CompSorted m → CompSorted (compUpdate m k f) := by
  intro m
  induction m with
  | nil =>
    intro _
    rw [compUpdate, CompSorted]
    simp
  | cons e t ih =>
    intro hs
    rw [compUpdate]
    split
    · next hlt =>
      rw [CompSorted, List.pairwise_cons]
      constructor
      · intro e' he'
        rcases List.mem_cons.mp he' with h | h
        · subst h; exact hlt
        · have := compSorted_head hs e' h; omega
      · exact hs
    · split
      · next hk =>
        rw [CompSorted, List.pairwise_cons]
        exact ⟨fun e' he' => compSorted_head hs e' he', compSorted_tail hs⟩
      · next hlt hne =>
        rw [CompSorted, List.pairwise_cons]
        constructor
        · intro e' he'
          rcases mem_compUpdate t k f e' he' with h | ⟨s, hsval, _⟩
          · exact compSorted_head hs e' h
          · subst hsval; simp only []; omega
        · exact ih (compSorted_tail hs)

/-- Twin-closure of `globalIndexRC` on forward ids. -/
theorem globalIndexRC_involution {x totalContigs : Nat} (hx : x < totalContigs) :
    globalIndexRC (globalIndexRC x totalContigs) totalContigs = x := by
  rw [globalIndexRC, globalIndexRC]
  rw [if_pos hx, if_neg (by omega)]
  omega

/-- Every pair set stored in the map is closed under the twin operation. -/
def TwinClosedAll (totalContigs : Nat) (m : CompMap) : Prop :=
  ∀ e ∈ m, ∀ a b : Nat, (a, b) ∈ e.2 →
    (globalIndexRC a totalContigs, globalIndexRC b totalContigs) ∈ e.2

theorem u2cStep_twin (uf : UnionFind) (totalContigs : Nat) (m : CompMap)
    (p : Nat × Nat) (hp1 : p.1 < totalContigs) (hp2 : p.2 < totalContigs)
    (hm : TwinClosedAll totalContigs m) :
    TwinClosedAll totalContigs (u2cStep uf totalContigs m p) := by
  intro e he a b hab
  rw [u2cStep] at he
  have hins : ∀ s : PairSet,
      (∀ a' b' : Nat, (a', b') ∈ s →
        (globalIndexRC a' totalContigs, globalIndexRC b' totalContigs) ∈ s) →
      ∀ a' b' : Nat,
        (a', b') ∈ pairInsert (globalIndexRC p.2 totalContigs, globalIndexRC p.1 totalContigs)
          (pairInsert (globalIndexRC p.1 totalContigs, globalIndexRC p.2 totalContigs)
            (pairInsert (p.2, p.1) (pairInsert (p.1, p.2) s))) →
        (globalIndexRC a' totalContigs, globalIndexRC b' totalContigs)
          ∈ pairInsert (globalIndexRC p.2 totalContigs, globalIndexRC p.1 totalContigs)
            (pairInsert (globalIndexRC p.1 totalContigs, globalIndexRC p.2 totalContigs)
              (pairInsert (p.2, p.1) (pairInsert (p.1, p.2) s))) := by
    intro s hsc a' b' hmem
    simp only [mem_pairInsert, Prod.mk.injEq] at hmem ⊢
    rcases hmem with ⟨h1, h2⟩ | ⟨h1, h2⟩ | ⟨h1, h2⟩ | ⟨h1, h2⟩ | hmem
    · subst h1; subst h2
      rw [globalIndexRC_involution hp2, globalIndexRC_involution hp1]
      right; right; left; exact ⟨rfl, rfl⟩
    · subst h1; subst h2
      rw [globalIndexRC_involution hp1, globalIndexRC_involution hp2]
      right; right; right; left; exact ⟨rfl, rfl⟩
    · subst h1; subst h2
      left; exact ⟨rfl, rfl⟩
    · subst h1; subst h2
      right; left; exact ⟨rfl, rfl⟩
    · right; right; right; right; exact hsc a' b' hmem
  rcases mem_compUpdate m _ _ e he with hold | ⟨s, hes, hs⟩
  · exact hm e hold a b hab
  · subst hes
    simp only [] at hab ⊢
    refine hins s ?_ a b hab
    rcases hs with hnil | hmemb
    · subst hnil; intro a' b' h; simp at h
    · exact fun a' b' h => hm (min (findSet uf p.1)
        (findSet uf (globalIndexRC p.1 totalContigs)), s) hmemb a' b' h

theorem unionFindToComponents_twin (uf : UnionFind) (totalContigs : Nat)
    (alignedPairs : PairSet)
    (hb : ∀ p ∈ alignedPairs, p.1 < totalContigs ∧ p.2 < totalContigs) :
    TwinClosedAll totalContigs (unionFindToComponents uf alignedPairs totalContigs) := by
  rw [unionFindToComponents]
  have hgen : ∀ (S : PairSet), (∀ p ∈ S, p.1 < totalContigs ∧ p.2 < totalContigs) →
      ∀ m : CompMap, TwinClosedAll totalContigs m →
        TwinClosedAll totalContigs (S.foldl (u2cStep uf totalContigs) m) := by
    intro S
    induction S with
    | nil => intro _ m hm; exact hm
    | cons p rest ih =>
      intro hS m hm
      rw [List.foldl_cons]
      exact ih (fun q hq => hS q (by simp [hq]))
        (u2cStep uf totalContigs m p)
        (u2cStep_twin uf totalContigs m p (hS p (by simp)).1 (hS p (by simp)).2 hm)
  refine hgen alignedPairs hb [] ?_
  intro e he
  simp at he

theorem addSingletonsGo_lookup (skipped : List Nat) (uf : UnionFind) :
    ∀ (d i : Nat) (comps : CompMap), CompSorted comps → ∀ x : Nat,
      compLookup (addSingletonsGo skipped uf d i comps) x
        = if i ≤ x ∧ x < i + d ∧ x ∉ skipped ∧ compLookup comps x = none
             ∧ findSet uf x = x
          then some [] else compLookup comps x := by
  intro d
  induction d with
  | zero =>
    intro i comps hs x
    rw [addSingletonsGo]
    rw [if_neg (by omega)]
  | succ d ih =>
    intro i comps hs x
    rw [addSingletonsGo]
    by_cases hcond : i ∉ skipped ∧ compLookup comps i = none ∧ findSet uf i = i
    · rw [if_pos hcond]
      rw [ih (i + 1) (compTouch comps i) (compUpdate_sorted i id comps hs) x]
      have htouch : ∀ y : Nat, compLookup (compTouch comps i) y
          = if y = i then some (((compLookup comps i).getD [])) else compLookup comps y := by
        intro y
        exact compLookup_compUpdate i id comps hs y
      by_cases hxi : x = i
      · subst hxi
        rw [if_neg (by omega), htouch x, if_pos rfl, hcond.2.1]
        rw [if_pos ⟨Nat.le_refl x, by omega, hcond.1, rfl, hcond.2.2⟩]
        rfl
      · rw [htouch x, if_neg hxi]
        by_cases hcx : i + 1 ≤ x ∧ x < i + 1 + d ∧ x ∉ skipped ∧ compLookup comps x = none
            ∧ findSet uf x = x
        · rw [if_pos hcx, if_pos ⟨by omega, by omega, hcx.2.2⟩]
        · rw [if_neg hcx, if_neg ?_]
          intro hc
          exact hcx ⟨by omega, by omega, hc.2.2⟩
    · rw [if_neg hcond]
      rw [ih (i + 1) comps hs x]
      by_cases hxi : x = i
      · subst hxi
        rw [if_neg (by omega), if_neg ?_]
        intro hc
        exact hcond hc.2.2
      · by_cases hcx : i + 1 ≤ x ∧ x < i + 1 + d ∧ x ∉ skipped ∧ compLookup comps x = none
            ∧ findSet uf x = x
        · rw [if_pos hcx, if_pos ⟨by omega, by omega, hcx.2.2⟩]
        · rw [if_neg hcx, if_neg ?_]
          intro hc
          exact hcx ⟨by omega, by omega, hc.2.2⟩

/-! ### Path enumeration invariants -/

/-- The walk recorded by a path's position map. -/
def walkOf (P : Path) : List Nat := P.positionMap.map Prod.snd

/-- Total label length along a walk. -/
def sumLens (g : ComponentGraph) (w : List Nat) : Nat :=
  (w.map (fun v => (labelAt g v).length)).sum

/-- The position map determined by a walk: each vertex keyed by the end
offset of its label. -/
def walkPositions (g : ComponentGraph) : Nat → List Nat → List (Nat × Nat)
  | _, [] => []
  | acc, v :: w =>
    (acc + (labelAt g v).length, v) :: walkPositions g (acc + (labelAt g v).length) w

/-- Invariant tying a path to its walk: the position map is the walk's end
offsets, the sequence is the concatenation of the walk's labels, and walk
vertices are in range. -/
def PathInv (g : ComponentGraph) (P : Path) : Prop :=
  P.positionMap = walkPositions g 0 (walkOf P) ∧
  P.seq = ((walkOf P).map (labelAt g)).flatten ∧
  ∀ v ∈ walkOf P, v < g.labels.length

/-- A path as emitted by the DFS: the invariant plus a nonempty walk. -/
def GoodPath (g : ComponentGraph) (P : Path) : Prop :=
  PathInv g P ∧ walkOf P ≠ []

theorem labelAt_ne_nil (g : ComponentGraph) (hlab : ∀ l ∈ g.labels, l ≠ [])
    {v : Nat} (hv : v < g.labels.length) : labelAt g v ≠ [] := by
  rw [labelAt, List.getD_eq_getElem g.labels [] hv]
  exact hlab _ (List.getElem_mem hv)

theorem walkPositions_map_snd (g : ComponentGraph) :
    ∀ (w : List Nat) (acc : Nat), (walkPositions g acc w).map Prod.snd = w := by
  intro w
  induction w with
  | nil => intro acc; rfl
  | cons v t ih => intro acc; rw [walkPositions, List.map_cons, ih]

theorem walkPositions_append1 (g : ComponentGraph) (v : Nat) :
    ∀ (w : List Nat) (acc : Nat),
      walkPositions g acc (w ++ [v])
        = walkPositions g acc w ++ [(acc + sumLens g w + (labelAt g v).length, v)] := by
  intro w
  induction w with
  | nil =>
    intro acc
    simp only [List.nil_append]
    rw [walkPositions, walkPositions, walkPositions]
    simp [sumLens]
  | cons v0 t ih =>
    intro acc
    rw [List.cons_append, walkPositions, walkPositions, ih]
    have hkey : acc + (labelAt g v0).length + sumLens g t
        = acc + sumLens g (v0 :: t) := by
      simp [sumLens]
      omega
    rw [List.cons_append, hkey]

theorem walkPositions_keys_le (g : ComponentGraph) :
    ∀ (w : List Nat) (acc : Nat) (kv : Nat × Nat),
      kv ∈ walkPositions g acc w → kv.1 ≤ acc + sumLens g w := by
  intro w
  induction w with
  | nil => intro acc kv h; simp [walkPositions] at h
  | cons v t ih =>
    intro acc kv h
    rw [walkPositions] at h
    rcases List.mem_cons.mp h with h | h
    · subst h
      simp only [sumLens, List.map_cons, List.sum_cons]
      omega
    · have := ih (acc + (labelAt g v).length) kv h
      simp only [sumLens, List.map_cons, List.sum_cons] at this ⊢
      omega

theorem mapSet_append (k v : Nat) :
    ∀ m : List (Nat × Nat), (∀ kv ∈ m, kv.1 < k) → mapSet m k v = m ++ [(k, v)] := by
  intro m
  induction m with
  | nil => intro _; rfl
  | cons e t ih =>
    intro hm
    rw [mapSet]
    have he : e.1 < k := hm e (by simp)
    rw [if_neg (by omega), if_neg (by omega), ih (fun kv hkv => hm kv (by simp [hkv]))]
    rfl

theorem seq_length_of_inv (g : ComponentGraph) (P : Path) (hinv : PathInv g P) :
    P.seq.length = sumLens g (walkOf P) := by
  rw [hinv.2.1, sumLens]
  simp [List.length_flatten, List.map_map]
  rfl

theorem extendPath_inv (g : ComponentGraph) (hlab : ∀ l ∈ g.labels, l ≠ [])
    (P : Path) (v : Nat) (hinv : PathInv g P) (hv : v < g.labels.length) :
    PathInv g (extendPath g P v) ∧ walkOf (extendPath g P v) = walkOf P ++ [v] := by
  have hlv : 0 < (labelAt g v).length :=
    List.length_pos.mpr (labelAt_ne_nil g hlab hv)
  have hlen : P.seq.length = sumLens g (walkOf P) := seq_length_of_inv g P hinv
  have hkeys : ∀ kv ∈ P.positionMap, kv.1 < (P.seq ++ labelAt g v).length := by
    intro kv hkv
    rw [hinv.1] at hkv
    have := walkPositions_keys_le g (walkOf P) 0 kv hkv
    simp only [List.length_append]
    omega
  have hmap : mapSet P.positionMap (P.seq ++ labelAt g v).length v
      = P.positionMap ++ [((P.seq ++ labelAt g v).length, v)] :=
    mapSet_append _ v P.positionMap hkeys
  have hwalk : walkOf (extendPath g P v) = walkOf P ++ [v] := by
    rw [walkOf, extendPath]
    simp only [hmap, List.map_append, List.map_cons, List.map_nil]
    rfl
  refine ⟨⟨?_, ?_, ?_⟩, hwalk⟩
  · show mapSet P.positionMap (P.seq ++ labelAt g v).length v
      = walkPositions g 0 (walkOf (extendPath g P v))
    rw [hmap, hwalk, walkPositions_append1, ← hinv.1]
    have : (P.seq ++ labelAt g v).length = 0 + sumLens g (walkOf P) + (labelAt g v).length := by
      simp only [List.length_append]
      omega
    rw [this]
  · show P.seq ++ labelAt g v = ((walkOf (extendPath g P v)).map (labelAt g)).flatten
    rw [hwalk, List.map_append, List.flatten_append, ← hinv.2.1]
    simp
  · rw [hwalk]
    intro u hu
    rcases List.mem_append.mp hu with h | h
    · exact hinv.2.2 u h
    · simp at h
      omega

theorem walkPositions_length (g : ComponentGraph) :
    ∀ (w : List Nat) (acc : Nat), (walkPositions g acc w).length = w.length := by
  intro w
  induction w with
  | nil => intro acc; rfl
  | cons v t ih => intro acc; rw [walkPositions, List.length_cons, ih, List.length_cons]

theorem walkPositions_get (g : ComponentGraph) :
    ∀ (w : List Nat) (acc j : Nat), j < w.length →
      ((walkPositions g acc w)[j]?).map Prod.fst
        = some (acc + sumLens g (w.take (j + 1))) := by
  intro w
  induction w with
  | nil => intro acc j hj; simp at hj
  | cons v t ih =>
    intro acc j hj
    cases j with
    | zero =>
      rw [walkPositions]
      simp only [List.getElem?_cons_zero, Option.map_some', List.take_succ_cons,
        List.take_zero, sumLens, List.map_cons, List.map_nil, List.sum_cons, List.sum_nil,
        Option.some.injEq]
      omega
    | succ j =>
      rw [walkPositions]
      rw [List.getElem?_cons_succ]
      rw [ih (acc + (labelAt g v).length) j (by simpa using hj)]
      simp only [List.take_succ_cons, sumLens, List.map_cons, List.sum_cons,
        Option.some.injEq]
      omega

theorem walkPositions_keys_chain (g : ComponentGraph) :
    ∀ (w : List Nat) (acc : Nat), (∀ v ∈ w, (labelAt g v).length ≠ 0) →
      List.Chain' (fun x y => x < y) ((walkPositions g acc w).map Prod.fst) := by
  intro w
  induction w with
  | nil => intro acc _; simp [walkPositions]
  | cons v t ih =>
    intro acc hw
    rw [walkPositions, List.map_cons]
    rw [List.chain'_cons']
    refine ⟨?_, ih (acc + (labelAt g v).length) (fun u hu => hw u (by simp [hu]))⟩
    intro b hb
    cases t with
    | nil => rw [walkPositions] at hb; simp at hb
    | cons v' t' =>
      rw [walkPositions, List.map_cons] at hb
      simp only [List.head?_cons, Option.mem_def, Option.some.injEq] at hb
      subst hb
      have := hw v' (by simp)
      omega

theorem dfs_goodPaths (g : ComponentGraph) (hlab : ∀ l ∈ g.labels, l ≠ [])
    (hadj : ∀ v, v < g.adj.length → ∀ u ∈ g.adj.getD v [], u < g.labels.length) :
    ∀ (fuel : Nat) (v : Nat) (prev : Path) (paths out : List Path),
      enumeratePathsDfs g fuel v prev paths = some out →
      PathInv g prev → v < g.labels.length → (∀ Q ∈ paths, GoodPath g Q) →
      ∀ Q ∈ out, GoodPath g Q := by
  intro fuel
  induction fuel with
  | zero =>
    intro v prev paths out hrun
    rw [enumeratePathsDfs] at hrun
    exact absurd hrun (by simp)
  | succ fuel ih =>
    intro v prev paths out hrun hprev hv hpaths
    rw [enumeratePathsDfs] at hrun
    obtain ⟨hinv, hwalk⟩ := extendPath_inv g hlab prev v hprev hv
    have hgood : GoodPath g (extendPath g prev v) :=
      ⟨hinv, by rw [hwalk]; simp⟩
    split at hrun
    · have hout : out = paths ++ [extendPath g prev v] := by
        injection hrun with h
        exact h.symm
      subst hout
      intro Q hQ
      rcases List.mem_append.mp hQ with h | h
      · exact hpaths Q h
      · simp at h
        subst h
        exact hgood
    · next hne =>
      have hvadj : v < g.adj.length := by
        by_contra hcon
        exact hne (by rw [adjOf, List.getD_eq_default]; omega)
      have hchild : ∀ u ∈ adjOf g v, u < g.labels.length := hadj v hvadj
      have hfold : ∀ (cs : List Nat), (∀ c ∈ cs, c < g.labels.length) →
          ∀ (paths0 out0 : List Path), (∀ Q ∈ paths0, GoodPath g Q) →
          cs.foldlM (fun acc c => enumeratePathsDfs g fuel c (extendPath g prev v) acc)
              paths0 = some out0 →
          ∀ Q ∈ out0, GoodPath g Q := by
        intro cs
        induction cs with
        | nil =>
          intro _ paths0 out0 h0 heq
          rw [List.foldlM_nil] at heq
          have hout : out0 = paths0 := by injection heq with h; exact h.symm
          subst hout
          exact h0
        | cons c t ihc =>
          intro hcs paths0 out0 h0 heq
          rw [List.foldlM_cons] at heq
          cases hmid : enumeratePathsDfs g fuel c (extendPath g prev v) paths0 with
          | none => rw [hmid] at heq; exact absurd heq (by simp)
          | some paths1 =>
            rw [hmid] at heq
            exact ihc (fun c' hc' => hcs c' (by simp [hc'])) paths1 out0
              (ih c (extendPath g prev v) paths0 paths1 hmid hinv (hcs c (by simp)) h0)
              heq
      exact hfold (adjOf g v) hchild paths out hpaths hrun

theorem enumerateFromSources_goodPaths (g : ComponentGraph)
    (hlab : ∀ l ∈ g.labels, l ≠ [])
    (hadj : ∀ v, v < g.adj.length → ∀ u ∈ g.adj.getD v [], u < g.labels.length)
    (fuel : Nat) :
    ∀ (srcs : List Nat) (paths out : List Path),
      enumerateFromSources g fuel srcs paths = some out →
      (∀ s ∈ srcs, s < g.labels.length) → (∀ Q ∈ paths, GoodPath g Q) →
      ∀ Q ∈ out, GoodPath g Q := by
  intro srcs
  induction srcs with
  | nil =>
    intro paths out hrun _ hpaths
    rw [enumerateFromSources] at hrun
    have hout : out = paths := by injection hrun with h; exact h.symm
    subst hout
    exact hpaths
  | cons s t ih =>
    intro paths out hrun hsrc hpaths
    rw [enumerateFromSources] at hrun
    cases hmid : enumeratePathsDfs g fuel s ⟨[], []⟩ paths with
    | none => rw [hmid] at hrun; exact absurd hrun (by simp)
    | some paths1 =>
      rw [hmid] at hrun
      have hinit : PathInv g ⟨[], []⟩ := ⟨rfl, rfl, by intro v hv; simp [walkOf] at hv⟩
      exact ih paths1 out hrun (fun s' hs' => hsrc s' (by simp [hs']))
        (dfs_goodPaths g hlab hadj fuel s ⟨[], []⟩ paths paths1 hmid hinit
          (hsrc s (by simp)) hpaths)

theorem enumeratePaths_goodPaths (g : ComponentGraph)
    (hlab : ∀ l ∈ g.labels, l ≠ [])
    (hadj : ∀ v, v < g.adj.length → ∀ u ∈ g.adj.getD v [], u < g.labels.length)
    (hsrc : ∀ s ∈ g.sources, s < g.labels.length)
    (fuel : Nat) (paths : List Path) (hrun : enumeratePaths g fuel = some paths) :
    ∀ Q ∈ paths, GoodPath g Q := by
  rw [enumeratePaths] at hrun
  exact enumerateFromSources_goodPaths g hlab hadj fuel g.sources [] paths hrun hsrc
    (by intro Q hQ; simp at hQ)

/-! ### `averageEntropy` facts -/

theorem diCountGo_some (seq : List Char) :
    ∀ (d i : Nat), i + d < seq.length → ∀ st : List Nat × Nat,
      ∃ r, diCountGo seq d i st = some r := by
  intro d
  induction d with
  | zero =>
    intro i _ st
    exact ⟨st, rfl⟩
  | succ d ih =>
    intro i hd st
    rw [diCountGo]
    rw [List.get?_eq_get (show i < seq.length by omega),
        List.get?_eq_get (show i + 1 < seq.length by omega)]
    exact ih (i + 1) (by omega) _

theorem diCountGo_counted (seq : List Char) :
    ∀ (d i : Nat) (st r : List Nat × Nat),
      diCountGo seq d i st = some r → st.2 ≤ r.2 ∧ (r.2 = st.2 → r.1 = st.1) := by
  intro d
  induction d with
  | zero =>
    intro i st r hr
    rw [diCountGo] at hr
    injection hr with h
    subst h
    exact ⟨Nat.le_refl _, fun _ => rfl⟩
  | succ d ih =>
    intro i st r hr
    rw [diCountGo] at hr
    cases hx : seq.get? i with
    | none => rw [hx] at hr; exact absurd hr (by simp)
    | some x =>
      cases hy : seq.get? (i + 1) with
      | none => rw [hx, hy] at hr; exact absurd hr (by simp)
      | some y =>
        rw [hx, hy] at hr
        simp only [] at hr
        by_cases hc : x ≠ 'N' ∧ y ≠ 'N'
        · rw [if_pos hc] at hr
          have := ih (i + 1) _ r hr
          refine ⟨by omega, fun h2 => ?_⟩
          omega
        · rw [if_neg hc] at hr
          exact ih (i + 1) st r hr

theorem entropySum_replicate_zero (log2q : ℚ → ℚ) (counted : Nat) :
    ∀ n : Nat, entropySum log2q (List.replicate n 0) counted = 0 := by
  have hgen : ∀ (n : Nat) (acc : ℚ),
      (List.replicate n (0 : Nat)).foldl
        (fun (entropy : ℚ) (c : Nat) =>
          if c = 0 then entropy
          else entropy - ((c : ℚ) / (counted : ℚ)) * log2q ((c : ℚ) / (counted : ℚ)))
        acc = acc := by
    intro n
    induction n with
    | zero => intro acc; rfl
    | succ n ih =>
      intro acc
      rw [List.replicate_succ, List.foldl_cons, if_pos rfl]
      exact ih acc
  intro n
  rw [entropySum]
  exact hgen n 0

theorem averageEntropy_total (log2q : ℚ → ℚ) (seq : List Char)
    (h1 : 1 ≤ seq.length) (h2 : seq.length < POW64) :
    ∃ cs : List Nat, ∃ counted : Nat, diCount seq = some (cs, counted) ∧
      averageEntropy log2q seq = some (entropySum log2q cs counted / 4) ∧
      (counted = 0 → averageEntropy log2q seq = some 0) := by
  have hbound : (seq.length + POW64 - 1) % POW64 = seq.length - 1 := by
    have hsplit : seq.length + POW64 - 1 = (seq.length - 1) + 1 * POW64 := by omega
    rw [hsplit, Nat.add_mul_mod_self_right]
    exact Nat.mod_eq_of_lt (by omega)
  have hb : 0 + (seq.length + POW64 - 1) % POW64 < seq.length := by
    rw [hbound]
    omega
  obtain ⟨r, hr⟩ := diCountGo_some seq ((seq.length + POW64 - 1) % POW64) 0 hb
    (List.replicate 16 0, 0)
  obtain ⟨cs, counted⟩ := r
  have hdi : diCount seq = some (cs, counted) := by rw [diCount]; exact hr
  refine ⟨cs, counted, hdi, ?_, ?_⟩
  · rw [averageEntropy, hdi]
    rfl
  · intro hc
    subst hc
    have hz := diCountGo_counted seq ((seq.length + POW64 - 1) % POW64) 0
      (List.replicate 16 0, 0) (cs, 0) hr
    have hcs : cs = List.replicate 16 0 := hz.2 rfl
    subst hcs
    rw [averageEntropy, hdi]
    simp only [Option.map_some', Option.some.injEq]
    rw [entropySum_replicate_zero]
    norm_num
/-! ### `bestDiagonal` on hit-free sequence pairs -/

theorem bestDiagonal_none_aux :
    ∀ (fuel q : Nat), q ≤ 3 →
      bestDiagonal fuel (("AAAA" : String).toList) (("CCCC" : String).toList) q = none := by
  intro fuel
  induction fuel with
  | zero => intro q _; rfl
  | succ fuel ih =>
    intro q hq
    rw [bestDiagonal]
    interval_cases q
    · rw [if_neg (by decide), if_pos rfl]
    · rw [if_neg (by decide), if_neg (by decide)]
      rw [(by decide : bestDiagScan (("AAAA" : String).toList) (("CCCC" : String).toList) 1
            = maxIntValue)]
      rw [if_pos rfl]
      exact ih 0 (by omega)
    · rw [if_neg (by decide), if_neg (by decide)]
      rw [(by decide : bestDiagScan (("AAAA" : String).toList) (("CCCC" : String).toList) 2
            = maxIntValue)]
      rw [if_pos rfl]
      exact ih 1 (by omega)
    · rw [if_neg (by decide), if_neg (by decide)]
      rw [(by decide : bestDiagScan (("AAAA" : String).toList) (("CCCC" : String).toList) 3
            = maxIntValue)]
      rw [if_pos rfl]
      exact ih 2 (by omega)

/-! ## Claims -/

/-- C1: every pair that `partitionContigs` records in the aligned-pair set
was inserted, from the fresh initial state, at a moment where the banded
local alignment score of the two forward sequences was strictly greater
than `minScore`, the two contigs belonged to different samples
(`pn ≠ pn`), and the ids lay in distinct union-find components. -/
theorem c1_partitionContigs_pair_conditions (L : LocalAlign) (o : MergeOpts)
    (contigs : Nat → Option ContigRec) (totalContigs : Nat)
    (groups : List (Nat × List Hit)) (p : Nat × Nat)
    (hp : p ∈ (partitionContigs L o contigs totalContigs groups
      (freshPartState (2 * totalContigs))).pairs) :
    ∃ s', Steps L o contigs totalContigs (freshPartState (2 * totalContigs)) s' ∧
      InsertedAt L o contigs totalContigs p s' := by
  rcases partitionContigs_mem L o contigs totalContigs groups p _ hp with hmem | h
  · exact absurd hmem (by simp [freshPartState])
  · exact h

/-- Witness for C1: the concrete run over `exGroups2` records `(0, 1)`. -/
theorem c1_witness :
    ((0, 1) : Nat × Nat) ∈ (partitionContigs exL exOpts exContigs2 2 exGroups2
        (freshPartState (2 * 2))).pairs
    ∧ ∃ s', Steps exL exOpts exContigs2 2 (freshPartState (2 * 2)) s' ∧
        InsertedAt exL exOpts exContigs2 2 (0, 1) s' :=
  ⟨by decide,
   c1_partitionContigs_pair_conditions exL exOpts exContigs2 2 exGroups2 (0, 1) (by decide)⟩

/-- C2 counterexample: for the run over `exGroups4` (insertion order
(0,2), (0,1), (2,3)) the components mapping has key 2, while the round trip
through `writeAlignedPairs`/`readAlignedPairs` (which processes the pairs
in sorted order on a fresh union-find of size 2N) yields key 1: the keys of
the two components mappings differ. -/
theorem c2_roundtrip_counterexample :
    (addSingletons (unionFindToComponents exRun4.uf exRun4.pairs 4) [] exRun4.uf 4).map
        Prod.fst = [2]
    ∧ (readAlignedPairs (freshUF (2 * 4)) [] 4 (writeAlignedPairs exRun4.pairs)).map
        (fun r => (addSingletons (unionFindToComponents r.1 r.2 4) [] r.1 4).map Prod.fst)
      = some [1]
    ∧ ([2] : List Nat) ≠ [1] := by
  refine ⟨by decide, by decide, by decide⟩

/-- C2 amended: provided the pairs were inserted in the sorted order of the
set (trace = set) and the ids fit the 64-bit size type, writing the set and
reading it back into a fresh union-find of size 2N succeeds and reproduces
exactly the original union-find and exactly the original pair set — no
written pair is skipped — and consequently the components mapping obtained
from the read-back state by `unionFindToComponents` and `addSingletons`
equals the one obtained from the original state.  Without the sorted-order
proviso the component keys can differ (see the counterexample). -/
theorem c2_roundtrip_amended (L : LocalAlign) (o : MergeOpts)
    (contigs : Nat → Option ContigRec) (totalContigs : Nat)
    (groups : List (Nat × List Hit)) (s : PartState)
    (hval : ∀ g ∈ groups, g.1 < totalContigs ∧ ∀ h ∈ g.2, h.b < totalContigs)
    (hN : 2 * totalContigs ≤ POW64)
    (hs : partitionContigs L o contigs totalContigs groups
            (freshPartState (2 * totalContigs)) = s)
    (hsorted : s.trace = s.pairs) :
    readAlignedPairs (freshUF (2 * totalContigs)) [] totalContigs
        (writeAlignedPairs s.pairs) = some (s.uf, s.pairs)
    ∧ ∀ (skipped : List Nat) (total : Nat),
        (readAlignedPairs (freshUF (2 * totalContigs)) [] totalContigs
            (writeAlignedPairs s.pairs)).map
          (fun r => addSingletons (unionFindToComponents r.1 r.2 totalContigs) skipped
            r.1 total)
        = some (addSingletons (unionFindToComponents s.uf s.pairs totalContigs) skipped
            s.uf total) := by
  obtain ⟨t, htr, _, hread⟩ := partitionContigs_replay L o contigs totalContigs groups hval
    (freshPartState (2 * totalContigs)) rfl
  rw [hs] at htr hread
  have ht : t = s.pairs := by
    have h0 : s.trace = t := by simpa [freshPartState] using htr
    rw [← h0, hsorted]
  subst ht
  have hbounds : ∀ p ∈ s.pairs, p.1 < POW64 ∧ p.2 < POW64 := by
    intro p hp
    have hb := readPairsList_bounds totalContigs s.pairs
      (freshPartState (2 * totalContigs)).uf (freshPartState (2 * totalContigs)).pairs
      (by rw [hread]; rfl) p hp
    have hsz : (freshPartState (2 * totalContigs)).uf.size = 2 * totalContigs := rfl
    rw [hsz] at hb
    exact ⟨by omega, by omega⟩
  have hmain : readAlignedPairs (freshUF (2 * totalContigs)) [] totalContigs
      (writeAlignedPairs s.pairs) = some (s.uf, s.pairs) := by
    rw [readAlignedPairs_write totalContigs s.pairs hbounds]
    exact hread
  refine ⟨hmain, fun skipped total => ?_⟩
  rw [hmain]
  rfl

/-- Witness for C2 amended: the single-pair run over `exGroups2` inserted
its pairs in sorted order, and the round trip reproduces its state. -/
theorem c2_witness :
    (∀ g ∈ exGroups2, g.1 < 2 ∧ ∀ h ∈ g.2, h.b < 2)
    ∧ 2 * 2 ≤ POW64
    ∧ exRun2.trace = exRun2.pairs
    ∧ (readAlignedPairs (freshUF (2 * 2)) [] 2 (writeAlignedPairs exRun2.pairs)
          = some (exRun2.uf, exRun2.pairs)
       ∧ ∀ (skipped : List Nat) (total : Nat),
          (readAlignedPairs (freshUF (2 * 2)) [] 2 (writeAlignedPairs exRun2.pairs)).map
            (fun r => addSingletons (unionFindToComponents r.1 r.2 2) skipped r.1 total)
          = some (addSingletons (unionFindToComponents exRun2.uf exRun2.pairs 2) skipped
              exRun2.uf total)) :=
  ⟨by decide, by decide, by decide,
   c2_roundtrip_amended exL exOpts exContigs2 2 exGroups2 exRun2 (by decide) (by decide) rfl
     (by decide)⟩

/-- C3 counterexample: the aligned-pair set recorded by `partitionContigs`
is not closed under the twin operation: the concrete final state contains
`(0, 1)` but not its twin `(2, 3)` — only the union-find and the later
per-component pair sets receive the twins. -/
theorem c3_twin_counterexample :
    exRun2.pairs = [(0, 1)]
    ∧ ((0, 1) : Nat × Nat) ∈ exRun2.pairs
    ∧ (globalIndexRC 0 2, globalIndexRC 1 2) = ((2, 3) : Nat × Nat)
    ∧ ((2, 3) : Nat × Nat) ∉ exRun2.pairs := by
  refine ⟨by decide, by decide, by decide, by decide⟩

/-- C3 amended: the aligned-pair set of `partitionContigs` itself stores only
the forward pair and is not twin-closed; the twin closure holds for the
per-component aligned-pair sets built by `unionFindToComponents`: whenever
`(a, b)` lies in the `alignedPairs` set of an entry of the components map,
the twin `(rc(a), rc(b))` lies in the same set (for input pairs over forward
ids, i.e. both below `totalContigs`). -/
theorem c3_components_twin_closed (uf : UnionFind) (totalContigs : Nat) (S : PairSet)
    (hb : ∀ p ∈ S, p.1 < totalContigs ∧ p.2 < totalContigs) :
    ∀ e ∈ unionFindToComponents uf S totalContigs, ∀ a b : Nat, (a, b) ∈ e.2 →
      (globalIndexRC a totalContigs, globalIndexRC b totalContigs) ∈ e.2 :=
  unionFindToComponents_twin uf totalContigs S hb

/-- Witness for C3 amended: the concrete single-pair set. -/
theorem c3_witness :
    (∀ p ∈ ([(0, 1)] : PairSet), p.1 < 2 ∧ p.2 < 2)
    ∧ ∀ e ∈ unionFindToComponents (freshUF 4) [(0, 1)] 2, ∀ a b : Nat, (a, b) ∈ e.2 →
        (globalIndexRC a 2, globalIndexRC b 2) ∈ e.2 :=
  ⟨by decide, c3_components_twin_closed (freshUF 4) 2 [(0, 1)] (by decide)⟩

/-- C4 counterexample: on a token with no numeric prefix `readAlignedPairs`
silently stops and returns success with nothing read (there is no
MalformedPairFile report); a plain id `≥ 2N` (here 9 with `2N = 4`), and
likewise `-1` — which `stream >>` accepts for the unsigned size type and
wraps to `2^64 - 1` — lead to an out-of-bounds union-find access (modelled
as `none`); and `+1` is accepted, so the pair `(1, 0)` is processed.  None
of these is the claimed MalformedPairFile error handling. -/
theorem c4_malformed_counterexample :
    (readAlignedPairs (freshUF 4) [] 2 [['x'], ['0']]).isSome = true
    ∧ (readAlignedPairs (freshUF 4) [] 2 [['x'], ['0']]).map (fun r => r.2) = some []
    ∧ (readAlignedPairs (freshUF 4) [] 2 [['9'], ['0']]).isNone = true
    ∧ extractNum ['-', '1'] = some (POW64 - 1, [])
    ∧ (readAlignedPairs (freshUF 4) [] 2 [['-', '1'], ['0']]).isNone = true
    ∧ (readAlignedPairs (freshUF 4) [] 2 [['+', '1'], ['0']]).map (fun r => r.2)
        = some [(1, 0)] := by
  refine ⟨by decide, by decide, by decide, by decide, by decide, by decide⟩

/-- C4 amended: there is no MalformedPairFile error.  An extraction fails
only on a token without a numeric prefix after an optional sign (or an
out-of-range digit run); sign-prefixed tokens are accepted, `-v` wrapping to
`2^64 - v` for the unsigned size type.  When the extraction of the key or of
the value fails, `readAlignedPairs` stops reading the pair file and returns
success with the state reached so far, skipping the rest and reporting
nothing; no id range check is performed, so a parsed id `≥` the union-find
size reaches the union-find out of bounds (`none`). -/
theorem c4_readAlignedPairs_amended :
    (∀ (uf : UnionFind) (ps : PairSet) (len : Nat) (toks : List (List Char)),
      nextNum toks = none → readAlignedPairs uf ps len toks = some (uf, ps))
    ∧ (∀ (uf : UnionFind) (ps : PairSet) (len : Nat) (toks toks1 : List (List Char)) (k : Nat),
      nextNum toks = some (k, toks1) → nextNum toks1 = none →
        readAlignedPairs uf ps len toks = some (uf, ps))
    ∧ (∀ (uf : UnionFind) (ps : PairSet) (len k v : Nat) (rest : List (List Char)),
      uf.size ≤ k → k < POW64 → v < POW64 →
        readAlignedPairs uf ps len (natRepr k :: natRepr v :: rest) = none)
    ∧ (∀ v : Nat, 0 < v → v < POW64 →
        extractNum ('-' :: natRepr v) = some (POW64 - v, [])) := by
  refine ⟨?_, ?_, ?_, ?_⟩
  · intro uf ps len toks h
    rw [readAlignedPairs, tokensFuel, readAlignedPairsGo, h]
  · intro uf ps len toks toks1 k h1 h2
    rw [readAlignedPairs, tokensFuel, readAlignedPairsGo, h1]
    simp only []
    rw [h2]
  · intro uf ps len k v rest hk hkP hvP
    rw [readAlignedPairs, tokensFuel, readAlignedPairsGo]
    rw [nextNum_natRepr hkP]
    simp only []
    rw [nextNum_natRepr hvP]
    simp only []
    have hstep : readPairStep uf ps len k v = none := by
      rw [readPairStep, if_neg (by omega)]
    rw [hstep]
  · intro v h0 hv
    exact extractNum_neg h0 hv

/-- Witness for C4 amended: a non-numeric token, a lone key without a value,
an oversized id and the wrapped `-1`. -/
theorem c4_witness :
    (nextNum [['x'], ['0']] = none
      ∧ readAlignedPairs (freshUF 4) [] 2 [['x'], ['0']] = some (freshUF 4, []))
    ∧ (nextNum [['5']] = some (5, [])
      ∧ nextNum ([] : List (List Char)) = none
      ∧ readAlignedPairs (freshUF 4) [] 2 [['5']] = some (freshUF 4, []))
    ∧ ((freshUF 4).size ≤ 9 ∧ (9 : Nat) < POW64 ∧ (0 : Nat) < POW64
      ∧ readAlignedPairs (freshUF 4) [] 2 (natRepr 9 :: natRepr 0 :: []) = none)
    ∧ ((0 : Nat) < 1 ∧ (1 : Nat) < POW64
      ∧ extractNum ('-' :: natRepr 1) = some (POW64 - 1, [])) :=
  ⟨⟨by decide, c4_readAlignedPairs_amended.1 (freshUF 4) [] 2 [['x'], ['0']] (by decide)⟩,
   ⟨by decide, by decide,
    c4_readAlignedPairs_amended.2.1 (freshUF 4) [] 2 [['5']] [] 5 (by decide) (by decide)⟩,
   ⟨by decide, by decide, by decide,
    c4_readAlignedPairs_amended.2.2.1 (freshUF 4) [] 2 9 0 [] (by decide) (by decide)
      (by decide)⟩,
   ⟨by decide, by decide, c4_readAlignedPairs_amended.2.2.2 1 (by decide) (by decide)⟩⟩

/-- C5 counterexample: with one forward contig (`N = 1`, union-find of size
2), `addSingletons` as called by `readAndMergeComponents` sweeps only
`[0, totalContigs) = [0, 1)`: the reverse-complement twin id 1 is a root
with no component and is not skipped, yet no singleton component is created
for it. -/
theorem c5_singletons_counterexample :
    addSingletons (unionFindToComponents (freshUF 2) [] 1) [] (freshUF 2) 1 = [(0, [])]
    ∧ findSet (freshUF 2) 1 = 1
    ∧ (1 : Nat) < 2 * 1
    ∧ compLookup (addSingletons (unionFindToComponents (freshUF 2) [] 1) []
        (freshUF 2) 1) 1 = none
    ∧ readAndMergeComponents [[]] 1 1 0 = some [(0, [])] := by
  refine ⟨by decide, by decide, by decide, by decide, by decide⟩

/-- C5 amended: `addSingletons` creates a singleton component exactly for
the ids `i` in `[0, totalContigs)` — the forward ids only, since
`readAndMergeComponents` passes `totalContigs = N` — that are unskipped
roots without a component; ids in `[N, 2N)` are never swept. -/
theorem c5_addSingletons_amended (components : CompMap) (skipped : List Nat)
    (uf : UnionFind) (totalContigs : Nat) (hs : CompSorted components) (i : Nat) :
    compLookup (addSingletons components skipped uf totalContigs) i
      = if i < totalContigs ∧ i ∉ skipped ∧ compLookup components i = none
           ∧ findSet uf i = i
        then some [] else compLookup components i := by
  rw [addSingletons]
  rw [addSingletonsGo_lookup skipped uf totalContigs 0 components hs i]
  by_cases hc : i < totalContigs ∧ i ∉ skipped ∧ compLookup components i = none
      ∧ findSet uf i = i
  · rw [if_pos ⟨by omega, by omega, hc.2⟩, if_pos hc]
  · rw [if_neg ?_, if_neg hc]
    intro hcc
    exact hc ⟨by omega, hcc.2.2⟩

/-- Witness for C5 amended: the empty components map and id 1 outside the
swept range `[0, 1)`. -/
theorem c5_witness :
    CompSorted ([] : CompMap)
    ∧ compLookup (addSingletons ([] : CompMap) [] (freshUF 2) 1) 1
        = if (1 : Nat) < 1 ∧ (1 : Nat) ∉ ([] : List Nat) ∧ compLookup ([] : CompMap) 1 = none
             ∧ findSet (freshUF 2) 1 = 1
          then some [] else compLookup ([] : CompMap) 1 :=
  ⟨by rw [CompSorted]; exact List.Pairwise.nil,
   c5_addSingletons_amended [] [] (freshUF 2) 1 (by rw [CompSorted]; exact List.Pairwise.nil) 1⟩

/-- C6: on sequences sharing no q-gram of any length (here `AAAA` against
`CCCC` with initial q-gram length 3) `bestDiagonal` keeps recursing with
`qgramLength * 2 / 3` — more than one retry — and never returns the
sentinel: the recursion reaches q-gram length 0, where the SeqAn shape is
undefined, so no amount of fuel produces a result.  The spec's prescribed
behaviour (sentinel once the reduced q is below 3, hence termination) is
not implemented. -/
theorem c6_bestDiagonal_diverges :
    ∀ fuel : Nat,
      bestDiagonal fuel (("AAAA" : String).toList) (("CCCC" : String).toList) 3 = none :=
  fun fuel => bestDiagonal_none_aux fuel 3 (by omega)

/-- C7 counterexample: with exactly 26 merged sequences the first record's
tag is the two-letter `aa`, not a single letter, although the claim
promises single letters for up to 26 paths. -/
theorem c7_tag_counterexample :
    (26 : Nat) ≤ 26
    ∧ superTag 26 0 = ['a', 'a']
    ∧ (superTag 26 0).length ≠ 1
    ∧ (writeSupercontigs (List.replicate 26 ['A']) [] 0 0).head?
        = some (superHeader 0 0 ['a', 'a'] 1 0) := by
  refine ⟨by decide, by decide, by decide, by decide⟩

/-- C7 amended: `writeSupercontigs` names record `i` with header
`COMPONENT_<batchIndex>.<pos>_<tag>_length_<L>_size_<N>` where the tag is
`superTag`; the tag is a single letter exactly when the number of merged
sequences is at most 25 (`a..y`), and two-letter base-26 otherwise. -/
theorem c7_writeSupercontigs_amended (mergedSeqs contigs : List (List Char))
    (batchIndex : Int) (pos : Nat) :
    writeSupercontigs mergedSeqs contigs batchIndex pos
      = mergedSeqs.enum.flatMap (fun e =>
          [superHeader batchIndex pos (superTag mergedSeqs.length e.1) e.2.length
            contigs.length, e.2])
    ∧ ∀ n i : Nat, (superTag n i).length = 1 ↔ n ≤ 25 := by
  constructor
  · rw [writeSupercontigs]
    split
    · next hle =>
      congr 1
      funext e
      rw [superTag, if_pos hle]
    · next hgt =>
      congr 1
      funext e
      rw [superTag, if_neg hgt]
  · intro n i
    rw [superTag]
    split
    · next h => simp [h]
    · next h => simp [h]

/-- C8: every path produced by `enumeratePaths` on a graph with nonempty,
in-range labels has a strictly increasing position map whose largest key is
the sequence length, and each key is the sum of the label lengths along the
walk up to and including the keyed vertex. -/
theorem c8_enumeratePaths_positionMap (g : ComponentGraph) (fuel : Nat)
    (paths : List Path) (P : Path)
    (hlab : ∀ l ∈ g.labels, l ≠ [])
    (hsrc : ∀ s ∈ g.sources, s < g.labels.length)
    (hadj : ∀ v, v < g.adj.length → ∀ u ∈ g.adj.getD v [], u < g.labels.length)
    (hrun : enumeratePaths g fuel = some paths) (hP : P ∈ paths) :
    List.Chain' (fun x y => x < y) (P.positionMap.map Prod.fst)
    ∧ P.positionMap ≠ []
    ∧ (P.positionMap.map Prod.fst).getLast? = some P.seq.length
    ∧ ∀ j : Nat, j < P.positionMap.length →
        (P.positionMap[j]?).map Prod.fst
          = some (sumLens g ((walkOf P).take (j + 1))) := by
  obtain ⟨⟨hpm, hseq, hrange⟩, hwne⟩ :=
    enumeratePaths_goodPaths g hlab hadj hsrc fuel paths hrun P hP
  have hpos : ∀ v ∈ walkOf P, (labelAt g v).length ≠ 0 := by
    intro v hv h0
    exact labelAt_ne_nil g hlab (hrange v hv) (List.length_eq_zero.mp h0)
  have hlen : P.positionMap.length = (walkOf P).length := by
    rw [hpm, walkPositions_length]
  have hwpos : 0 < (walkOf P).length := List.length_pos.mpr hwne
  refine ⟨?_, ?_, ?_, ?_⟩
  · rw [hpm]
    exact walkPositions_keys_chain g (walkOf P) 0 hpos
  · intro h0
    rw [hpm] at h0
    have := walkPositions_map_snd g (walkOf P) 0
    rw [h0] at this
    exact hwne (by rw [walkOf, hpm, h0]; rfl)
  · rw [List.getLast?_eq_getElem?, List.getElem?_map, List.length_map, hlen, hpm,
        walkPositions_get g (walkOf P) 0 ((walkOf P).length - 1) (by omega)]
    have htake : (walkOf P).take ((walkOf P).length - 1 + 1) = walkOf P := by
      have : (walkOf P).length - 1 + 1 = (walkOf P).length := by omega
      rw [this, List.take_length]
    rw [htake, seq_length_of_inv g P ⟨hpm, hseq, hrange⟩]
    simp
  · intro j hj
    rw [hpm, walkPositions_get g (walkOf P) 0 j (by omega)]
    simp

/-- Witness for C8: the two-vertex example graph and its unique path. -/
theorem c8_witness :
    ((∀ l ∈ exGraph.labels, l ≠ [])
      ∧ (∀ s ∈ exGraph.sources, s < exGraph.labels.length)
      ∧ (∀ v, v < exGraph.adj.length → ∀ u ∈ exGraph.adj.getD v [],
          u < exGraph.labels.length)
      ∧ enumeratePaths exGraph 5 = some [exPath] ∧ exPath ∈ [exPath])
    ∧ (List.Chain' (fun x y => x < y) (exPath.positionMap.map Prod.fst)
      ∧ exPath.positionMap ≠ []
      ∧ (exPath.positionMap.map Prod.fst).getLast? = some exPath.seq.length
      ∧ ∀ j : Nat, j < exPath.positionMap.length →
          (exPath.positionMap[j]?).map Prod.fst
            = some (sumLens exGraph ((walkOf exPath).take (j + 1)))) :=
  ⟨⟨by decide, by decide, by decide, by decide, by decide⟩,
   c8_enumeratePaths_positionMap exGraph 5 [exPath] exPath (by decide) (by decide)
     (by decide) (by decide) (by decide)⟩

/-- C9: `getSeqsByAlignOrder` dereferences `begin()` of the aligned-pair
set unconditionally, so an empty set reaches the past-the-end dereference
(`none`); and `constructSupercontigs` calls it on every component,
including the empty singleton components created by `addSingletons`, making
the error reachable from the public interface (the concrete pipeline run on
one singleton returns `none`). -/
theorem c9_getSeqsByAlignOrder_unsafe :
    (∀ (c : ContigComponent) (contigs contigIds : Nat → List Char),
      c.alignedPairs = [] → getSeqsByAlignOrder c contigs contigIds = none)
    ∧ constructSupercontigs
        (addSingletons (unionFindToComponents (freshUF 2) [] 1) [] (freshUF 2) 1)
        (fun _ => ['A']) (fun _ => ['c']) 1 (fun _ => none) 0 = none := by
  constructor
  · intro c contigs contigIds hc
    rw [getSeqsByAlignOrder, hc]
  · decide

/-- Witness for C9: the empty component. -/
theorem c9_witness :
    (ContigComponent.mk [] [] []).alignedPairs = []
    ∧ getSeqsByAlignOrder (ContigComponent.mk [] [] []) (fun _ => ['A'])
        (fun _ => ['c']) = none :=
  ⟨rfl, c9_getSeqsByAlignOrder_unsafe.1 (ContigComponent.mk [] [] [])
    (fun _ => ['A']) (fun _ => ['c']) rfl⟩

/-- C10: for sequences of length at least 1 (and below the unsigned range)
`averageEntropy` terminates with every access in bounds, and returns 0
whenever no dinucleotide was counted — in particular for length exactly 1;
on the empty sequence the unsigned loop bound wraps around and the
out-of-range access is reached (`none`), so nonemptiness is a necessary
precondition. -/
theorem c10_averageEntropy_safe :
    (∀ (log2q : ℚ → ℚ) (seq : List Char), 1 ≤ seq.length → seq.length < POW64 →
      ∃ cs : List Nat, ∃ counted : Nat, diCount seq = some (cs, counted) ∧
        averageEntropy log2q seq = some (entropySum log2q cs counted / 4) ∧
        (counted = 0 → averageEntropy log2q seq = some 0))
    ∧ ∀ log2q : ℚ → ℚ, averageEntropy log2q [] = none := by
  refine ⟨averageEntropy_total, ?_⟩
  intro log2q
  rfl

/-- Witness for C10: the single-base sequence `A` (whose loop counts no
dinucleotide). -/
theorem c10_witness :
    (1 ≤ (['A'] : List Char).length ∧ (['A'] : List Char).length < POW64)
    ∧ ∃ cs : List Nat, ∃ counted : Nat, diCount ['A'] = some (cs, counted) ∧
        averageEntropy (fun _ => 0) ['A'] = some (entropySum (fun _ => 0) cs counted / 4) ∧
        (counted = 0 → averageEntropy (fun _ => 0) ['A'] = some 0) :=
  ⟨⟨by decide, by decide⟩,
   c10_averageEntropy_safe.1 (fun _ => 0) ['A'] (by decide) (by decide)⟩

end Popins
